import Mathlib

/-!
Verification of the Chronoxide solver core against its specification.

The Rust sources are shallowly embedded: `i64` is modeled by `Int` (the
source assumes non-overflowing arithmetic; in debug builds overflow is a
runtime failure, never a wrapped value that later code consumes), Rust's
truncated `%` and `/` on integers are `Int.tmod` and `Int.tdiv`, and every
`panic!`/failed `assert!` branch is an explicit `none`/error value.
-/

namespace Chronoxide

/-! ## Rational (src/utils/rational.rs) -/

/-- One step bound for the Euclidean loop: the truncated remainder shrinks
in absolute value. -/
theorem natAbs_tmod (a b : Int) : (a.tmod b).natAbs = a.natAbs % b.natAbs := by
  cases a <;> cases b <;> simp [Int.tmod, Int.ofNat_eq_natCast] <;> norm_cast

/-- Fuel-indexed unfolding of the loop in `fn gcd` of rational.rs
(`while b != 0 { let temp = b; b = a % b; a = temp; }`); the fuel only
serves totality and is irrelevant once it exceeds `b.natAbs`
(`rustGcd_eq` below recovers the exact source recurrence). -/
def rustGcdAux : Nat → Int → Int → Int
  | 0, a, _ => a
  | fuel + 1, a, b => if b = 0 then a else rustGcdAux fuel b (a.tmod b)

/-- `fn gcd(mut a: i64, mut b: i64) -> i64` from rational.rs. -/
def rustGcd (a b : Int) : Int :=
  rustGcdAux (b.natAbs + 1) a b

theorem rustGcdAux_fuel_irrel :
    ∀ (f1 f2 : Nat) (a b : Int), b.natAbs < f1 → b.natAbs < f2 →
      rustGcdAux f1 a b = rustGcdAux f2 a b := by
  intro f1
  induction f1 with
  | zero => intro f2 a b h1 _; omega
  | succ n ih =>
    intro f2 a b h1 h2
    match f2 with
    | 0 => omega
    | m + 1 =>
      by_cases hb : b = 0
      · simp [rustGcdAux, hb]
      · have hlt : (a.tmod b).natAbs < b.natAbs := by
          rw [natAbs_tmod]
          exact Nat.mod_lt _ (by omega)
        simp only [rustGcdAux, hb, if_false]
        exact ih m b (a.tmod b) (by omega) (by omega)

/-- The source recurrence of `fn gcd`. -/
theorem rustGcd_eq (a b : Int) :
    rustGcd a b = if b = 0 then a else rustGcd b (a.tmod b) := by
  by_cases hb : b = 0
  · simp [rustGcd, rustGcdAux, hb]
  · have hlt : (a.tmod b).natAbs < b.natAbs := by
      rw [natAbs_tmod]; exact Nat.mod_lt _ (by simpa [Int.natAbs_pos] using hb)
    simp only [hb, if_false]
    show rustGcdAux (b.natAbs + 1) a b = rustGcdAux ((a.tmod b).natAbs + 1) b (a.tmod b)
    rw [show rustGcdAux (b.natAbs + 1) a b = rustGcdAux b.natAbs b (a.tmod b) from by
      simp [rustGcdAux, hb]]
    exact rustGcdAux_fuel_irrel b.natAbs ((a.tmod b).natAbs + 1) b (a.tmod b) hlt (by omega)

theorem rustGcd_natAbs (a b : Int) :
    (rustGcd a b).natAbs = Nat.gcd a.natAbs b.natAbs := by
  generalize hn : b.natAbs = n
  induction n using Nat.strong_induction_on generalizing a b with
  | _ n ih =>
    subst hn
    rw [rustGcd_eq]
    by_cases hb : b = 0
    · simp [hb]
    · simp only [hb, if_false]
      have hlt : (a.tmod b).natAbs < b.natAbs := by
        rw [natAbs_tmod]; exact Nat.mod_lt _ (by simpa [Int.natAbs_pos] using hb)
      rw [ih (a.tmod b).natAbs hlt b (a.tmod b) rfl]
      rw [natAbs_tmod]
      rw [Nat.gcd_comm b.natAbs, ← Nat.gcd_rec b.natAbs a.natAbs,
        Nat.gcd_comm b.natAbs a.natAbs]

theorem abs_rustGcd (a b : Int) : |rustGcd a b| = (Int.gcd a b : Int) := by
  rw [Int.abs_eq_natAbs, rustGcd_natAbs]; rfl

theorem rustGcd_dvd_left (a b : Int) : rustGcd a b ∣ a := by
  rw [← Int.natAbs_dvd_natAbs, rustGcd_natAbs]
  exact Nat.gcd_dvd_left _ _

theorem rustGcd_dvd_right (a b : Int) : rustGcd a b ∣ b := by
  rw [← Int.natAbs_dvd_natAbs, rustGcd_natAbs]
  exact Nat.gcd_dvd_right _ _

theorem rustGcd_ne_zero_of_right (a b : Int) (hb : b ≠ 0) : rustGcd a b ≠ 0 := by
  intro h
  have := rustGcd_natAbs a b
  rw [h] at this
  simp only [Int.natAbs_zero] at this
  have := Nat.gcd_eq_zero_iff.mp this.symm
  exact hb (by simpa [Int.natAbs_eq_zero] using this.2)

/-- `struct Rational { num: i64, den: i64 }`. -/
structure Rational where
  num : Int
  den : Int
deriving DecidableEq, Repr

/-- `fn normalize(&mut self)`: divide by `gcd(num, den).abs()`, then make the
denominator non-negative.  (The source only ever calls this on pairs other
than (0, 0), guarded by `Rational::new` and the indeterminate-form checks;
on (0, 0) the Rust division would fail.) -/
def rnormalize (r : Rational) : Rational :=
  let g := |rustGcd r.num r.den|
  let n := r.num.tdiv g
  let d := r.den.tdiv g
  if d < 0 then ⟨-n, -d⟩ else ⟨n, d⟩

/-- `Rational::new(num, den)`; the `assert!(num != 0 || den != 0)` is the
`none` branch. -/
def rnew (num den : Int) : Option Rational :=
  if num = 0 ∧ den = 0 then none else some (rnormalize ⟨num, den⟩)

/-- `Rational::from_integer(arg)` = `new(arg, 1)`, which never fails. -/
def fromInteger (n : Int) : Rational :=
  rnormalize ⟨n, 1⟩

def POSITIVE_INFINITY : Rational := ⟨1, 0⟩
def NEGATIVE_INFINITY : Rational := ⟨-1, 0⟩
def ZERO : Rational := ⟨0, 1⟩

/-- `impl Neg for Rational` (`Rational::new(-self.num, self.den)`). -/
def rneg (r : Rational) : Option Rational :=
  rnew (-r.num) r.den

/-- `impl AddAssign for Rational`; the `panic!("Indeterminate form:
infinity + (-infinity)")` branch is `none`. -/
def addAssign (a b : Rational) : Option Rational :=
  if a.den = 0 then
    if b.den = 0 ∧ a.num ≠ b.num then none else some a
  else if b.den = 0 then some b
  else
    let g := rustGcd a.den b.den
    let den := b.den.tdiv g
    some (rnormalize ⟨a.num * den + b.num * (a.den.tdiv g), a.den * den⟩)

/-- `impl SubAssign for Rational`; `panic!("Indeterminate form: infinity -
infinity")` is `none`; the `*self = -other` branch goes through `Neg`. -/
def subAssign (a b : Rational) : Option Rational :=
  if a.den = 0 then
    if b.den = 0 ∧ a.num = b.num then none else some a
  else if b.den = 0 then rneg b
  else
    let g := rustGcd a.den b.den
    let den := b.den.tdiv g
    some (rnormalize ⟨a.num * den - b.num * (a.den.tdiv g), a.den * den⟩)

/-- `impl MulAssign for Rational`; `panic!("Indeterminate form: 0 *
infinity")` is `none`. -/
def mulAssign (a b : Rational) : Option Rational :=
  if (a.num = 0 ∧ b.den = 0) ∨ (a.den = 0 ∧ b.num = 0) then none
  else
    let g1 := |rustGcd a.num b.den|
    let g2 := |rustGcd b.num a.den|
    some (rnormalize ⟨(a.num.tdiv g1) * (b.num.tdiv g2), (a.den.tdiv g2) * (b.den.tdiv g1)⟩)

/-- `impl DivAssign for Rational`; the 0/0 and infinity/infinity
`panic!` branches are `none`. -/
def divAssign (a b : Rational) : Option Rational :=
  if a.num = 0 ∧ b.num = 0 then none
  else if a.den = 0 ∧ b.den = 0 then none
  else
    let g1 := |rustGcd a.num b.num|
    let g2 := |rustGcd b.den a.den|
    some (rnormalize ⟨(a.num.tdiv g1) * (b.den.tdiv g2), (a.den.tdiv g2) * (b.num.tdiv g1)⟩)

/-- `impl MulAssign<i64> for Rational`; `panic!("Indeterminate form:
infinity * 0")` is `none`. -/
def mulAssignInt (a : Rational) (other : Int) : Option Rational :=
  if a.den = 0 ∧ other = 0 then none
  else
    let g := |rustGcd other a.den|
    some (rnormalize ⟨a.num * (other.tdiv g), a.den.tdiv g⟩)

/-- `impl DivAssign<i64> for Rational`; `panic!("Indeterminate form:
0 / 0")` is `none`. -/
def divAssignInt (a : Rational) (other : Int) : Option Rational :=
  if a.num = 0 ∧ other = 0 then none
  else
    let g := |rustGcd a.num other|
    some (rnormalize ⟨a.num.tdiv g, a.den * (other.tdiv g)⟩)

/-- The representation invariant rational.rs maintains: non-negative
denominator and reduced form (this also rules out the forbidden (0,0),
whose gcd is 0). -/
def IsNormalized (r : Rational) : Prop :=
  0 ≤ r.den ∧ Int.gcd r.num r.den = 1

instance (r : Rational) : Decidable (IsNormalized r) := by
  unfold IsNormalized; infer_instance

/-- A positive-infinity value `(num > 0, den = 0)`. -/
def isPosInf (r : Rational) : Prop := r.den = 0 ∧ 0 < r.num

/-- A negative-infinity value `(num < 0, den = 0)`. -/
def isNegInf (r : Rational) : Prop := r.den = 0 ∧ r.num < 0

instance (r : Rational) : Decidable (isPosInf r) := by
  unfold isPosInf; infer_instance

instance (r : Rational) : Decidable (isNegInf r) := by
  unfold isNegInf; infer_instance

theorem norm_infinite_num {a : Rational} (ha : IsNormalized a) (h : a.den = 0) :
    a.num = 1 ∨ a.num = -1 := by
  have h2 := ha.2
  rw [h, Int.gcd_zero_right] at h2
  omega

theorem norm_zero_eq {a : Rational} (ha : IsNormalized a) (h : a.num = 0) :
    a = ZERO := by
  have h2 := ha.2
  rw [h, Int.gcd_zero_left] at h2
  have h1 := ha.1
  cases a with
  | mk n d =>
    simp only at h h2 h1 ⊢
    have : d = 1 := by omega
    simp [ZERO, h, this]

theorem rnormalize_spec (n d : Int) (hd : d ≠ 0) :
    0 < (rnormalize ⟨n, d⟩).den ∧ IsNormalized (rnormalize ⟨n, d⟩) ∧
      (rnormalize ⟨n, d⟩).num * d = n * (rnormalize ⟨n, d⟩).den := by
  have hGpos : 0 < Int.gcd n d := Int.gcd_pos_iff.mpr (Or.inr hd)
  set G : Int := (Int.gcd n d : Int) with hGdef
  have habs : |rustGcd n d| = G := abs_rustGcd n d
  have hGne : G ≠ 0 := by
    rw [hGdef]
    simp only [ne_eq, Int.natCast_eq_zero]
    omega
  have hdvdn : G ∣ n := Int.gcd_dvd_left
  have hdvdd : G ∣ d := Int.gcd_dvd_right
  have htn : n.tdiv |rustGcd n d| = n / G := by
    rw [habs]; exact Int.tdiv_eq_ediv_of_dvd hdvdn
  have htd : d.tdiv |rustGcd n d| = d / G := by
    rw [habs]; exact Int.tdiv_eq_ediv_of_dvd hdvdd
  have hrest : G * (d / G) = d := Int.mul_ediv_cancel' hdvdd
  have hnrest : G * (n / G) = n := Int.mul_ediv_cancel' hdvdn
  have hd0 : d / G ≠ 0 := by
    intro h
    rw [h, mul_zero] at hrest
    exact hd hrest.symm
  have hcop : Int.gcd (n / G) (d / G) = 1 := by
    rw [hGdef]; exact Int.gcd_div_gcd_div_gcd hGpos
  have hcross : (n / G) * d = n * (d / G) := by
    conv_lhs => rw [← hrest]
    conv_rhs => rw [← hnrest]
    ring
  show 0 < (rnormalize ⟨n, d⟩).den ∧ _ ∧ _
  unfold rnormalize
  simp only [htn, htd]
  split_ifs with hneg
  · have h1 : (0:Int) < -(d / G) := by omega
    have h2 : Int.gcd (-(n / G)) (-(d / G)) = 1 := by
      simpa [Int.gcd, Int.natAbs_neg] using hcop
    have h3 : (-(n / G)) * d = n * (-(d / G)) := by
      simp only [neg_mul, mul_neg, hcross]
    exact ⟨h1, ⟨le_of_lt h1, h2⟩, h3⟩
  · have h1 : (0:Int) < d / G := by omega
    exact ⟨h1, ⟨le_of_lt h1, hcop⟩, hcross⟩

theorem reduced_eq_of_cross {a b : Rational} (ha : IsNormalized a) (hb : IsNormalized b)
    (hda : a.den ≠ 0) (hdb : b.den ≠ 0) (h : a.num * b.den = b.num * a.den) : a = b := by
  have hcopa : IsCoprime a.num a.den := Int.gcd_eq_one_iff_coprime.mp ha.2
  have hcopb : IsCoprime b.num b.den := Int.gcd_eq_one_iff_coprime.mp hb.2
  have h1 : a.den ∣ b.den := by
    have hdvd : a.den ∣ a.num * b.den := ⟨b.num, by rw [h]; ring⟩
    exact hcopa.symm.dvd_of_dvd_mul_left hdvd
  have h2 : b.den ∣ a.den := by
    have hdvd : b.den ∣ b.num * a.den := ⟨a.num, by rw [← h]; ring⟩
    exact hcopb.symm.dvd_of_dvd_mul_left hdvd
  have hdeq : a.den = b.den := Int.dvd_antisymm ha.1 hb.1 h1 h2
  have hnum : a.num = b.num := by
    rw [hdeq] at h
    exact mul_right_cancel₀ hdb h
  cases a; cases b
  simp_all

/-- Interpretation of a finite `Rational` as a mathematical rational. -/
def toQ (r : Rational) : ℚ := (r.num : ℚ) / (r.den : ℚ)

theorem toQ_eq_iff {a b : Rational} (hda : a.den ≠ 0) (hdb : b.den ≠ 0) :
    toQ a = toQ b ↔ a.num * b.den = b.num * a.den := by
  unfold toQ
  rw [div_eq_div_iff (by exact_mod_cast hda) (by exact_mod_cast hdb)]
  constructor <;> intro h <;> exact_mod_cast h

theorem addAssign_finite (a b : Rational) (hda : a.den ≠ 0) (hdb : b.den ≠ 0) :
    ∃ t, addAssign a b = some t ∧ t.den ≠ 0 ∧ IsNormalized t ∧ toQ t = toQ a + toQ b := by
  set g : Int := rustGcd a.den b.den with hgdef
  have hg : g ≠ 0 := rustGcd_ne_zero_of_right _ _ hdb
  obtain ⟨p, hp⟩ : g ∣ a.den := rustGcd_dvd_left a.den b.den
  obtain ⟨q, hq⟩ : g ∣ b.den := rustGcd_dvd_right a.den b.den
  have htp : a.den.tdiv g = p := by
    conv_lhs => rw [hp]
    exact Int.mul_tdiv_cancel_left p hg
  have htq : b.den.tdiv g = q := by
    conv_lhs => rw [hq]
    exact Int.mul_tdiv_cancel_left q hg
  have hpne : p ≠ 0 := by rintro rfl; rw [mul_zero] at hp; exact hda hp
  have hqne : q ≠ 0 := by rintro rfl; rw [mul_zero] at hq; exact hdb hq
  have hD : a.den * q ≠ 0 := mul_ne_zero hda hqne
  have heq : addAssign a b =
      some (rnormalize ⟨a.num * q + b.num * p, a.den * q⟩) := by
    simp [addAssign, hda, hdb, ← hgdef, htp, htq]
  obtain ⟨hden, hnorm, hcross⟩ := rnormalize_spec (a.num * q + b.num * p) (a.den * q) hD
  refine ⟨_, heq, by omega, hnorm, ?_⟩
  have h1 : toQ (rnormalize ⟨a.num * q + b.num * p, a.den * q⟩) =
      toQ ⟨a.num * q + b.num * p, a.den * q⟩ :=
    (toQ_eq_iff (by omega) hD).mpr hcross
  rw [h1]
  unfold toQ
  have hgq : ((g : ℚ)) ≠ 0 := by exact_mod_cast hg
  have hpq : ((p : ℚ)) ≠ 0 := by exact_mod_cast hpne
  have hqq : ((q : ℚ)) ≠ 0 := by exact_mod_cast hqne
  have hpa : ((a.den : ℚ)) = (g : ℚ) * (p : ℚ) := by exact_mod_cast hp
  have hqb : ((b.den : ℚ)) = (g : ℚ) * (q : ℚ) := by exact_mod_cast hq
  push_cast
  rw [hpa, hqb]
  field_simp
  ring

theorem subAssign_finite (a b : Rational) (hda : a.den ≠ 0) (hdb : b.den ≠ 0) :
    ∃ t, subAssign a b = some t ∧ t.den ≠ 0 ∧ IsNormalized t ∧ toQ t = toQ a - toQ b := by
  set g : Int := rustGcd a.den b.den with hgdef
  have hg : g ≠ 0 := rustGcd_ne_zero_of_right _ _ hdb
  obtain ⟨p, hp⟩ : g ∣ a.den := rustGcd_dvd_left a.den b.den
  obtain ⟨q, hq⟩ : g ∣ b.den := rustGcd_dvd_right a.den b.den
  have htp : a.den.tdiv g = p := by
    conv_lhs => rw [hp]
    exact Int.mul_tdiv_cancel_left p hg
  have htq : b.den.tdiv g = q := by
    conv_lhs => rw [hq]
    exact Int.mul_tdiv_cancel_left q hg
  have hpne : p ≠ 0 := by rintro rfl; rw [mul_zero] at hp; exact hda hp
  have hqne : q ≠ 0 := by rintro rfl; rw [mul_zero] at hq; exact hdb hq
  have hD : a.den * q ≠ 0 := mul_ne_zero hda hqne
  have heq : subAssign a b =
      some (rnormalize ⟨a.num * q - b.num * p, a.den * q⟩) := by
    simp [subAssign, hda, hdb, ← hgdef, htp, htq]
  obtain ⟨hden, hnorm, hcross⟩ := rnormalize_spec (a.num * q - b.num * p) (a.den * q) hD
  refine ⟨_, heq, by omega, hnorm, ?_⟩
  have h1 : toQ (rnormalize ⟨a.num * q - b.num * p, a.den * q⟩) =
      toQ ⟨a.num * q - b.num * p, a.den * q⟩ :=
    (toQ_eq_iff (by omega) hD).mpr hcross
  rw [h1]
  unfold toQ
  have hgq : ((g : ℚ)) ≠ 0 := by exact_mod_cast hg
  have hpq : ((p : ℚ)) ≠ 0 := by exact_mod_cast hpne
  have hqq : ((q : ℚ)) ≠ 0 := by exact_mod_cast hqne
  have hpa : ((a.den : ℚ)) = (g : ℚ) * (p : ℚ) := by exact_mod_cast hp
  have hqb : ((b.den : ℚ)) = (g : ℚ) * (q : ℚ) := by exact_mod_cast hq
  push_cast
  rw [hpa, hqb]
  field_simp
  ring

theorem rneg_isSome {b : Rational} (hb : IsNormalized b) : ∃ c, rneg b = some c := by
  unfold rneg rnew
  by_cases h : -b.num = 0 ∧ b.den = 0
  · exfalso
    have h2 := hb.2
    rw [show b.num = 0 by omega, h.2] at h2
    simp [Int.gcd] at h2
  · rw [if_neg h]
    exact ⟨_, rfl⟩

theorem addAssign_none_iff (a b : Rational) :
    addAssign a b = none ↔ (a.den = 0 ∧ b.den = 0 ∧ a.num ≠ b.num) := by
  constructor
  · intro h
    by_cases h1 : a.den = 0
    · by_cases h2 : b.den = 0 ∧ a.num ≠ b.num
      · exact ⟨h1, h2.1, h2.2⟩
      · simp [addAssign, h1, h2] at h
    · by_cases h2 : b.den = 0 <;> simp [addAssign, h1, h2] at h
  · rintro ⟨h1, h2, h3⟩
    simp [addAssign, h1, h2, h3]

theorem subAssign_none_iff (a b : Rational) (hb : IsNormalized b) :
    subAssign a b = none ↔ (a.den = 0 ∧ b.den = 0 ∧ a.num = b.num) := by
  constructor
  · intro h
    by_cases h1 : a.den = 0
    · by_cases h2 : b.den = 0 ∧ a.num = b.num
      · exact ⟨h1, h2.1, h2.2⟩
      · simp [subAssign, h1, h2] at h
    · by_cases h2 : b.den = 0
      · obtain ⟨c, hc⟩ := rneg_isSome hb
        simp [subAssign, h1, h2, hc] at h
      · simp [subAssign, h1, h2] at h
  · rintro ⟨h1, h2, h3⟩
    simp [subAssign, h1, h2, h3]

theorem mulAssign_none_iff (a b : Rational) :
    mulAssign a b = none ↔ ((a.num = 0 ∧ b.den = 0) ∨ (a.den = 0 ∧ b.num = 0)) := by
  by_cases h : (a.num = 0 ∧ b.den = 0) ∨ (a.den = 0 ∧ b.num = 0) <;> simp [mulAssign, h]

theorem divAssign_none_iff (a b : Rational) :
    divAssign a b = none ↔ ((a.num = 0 ∧ b.num = 0) ∨ (a.den = 0 ∧ b.den = 0)) := by
  by_cases h1 : a.num = 0 ∧ b.num = 0
  · simp [divAssign, h1]
  · by_cases h2 : a.den = 0 ∧ b.den = 0 <;> simp [divAssign, h1, h2]

theorem mulAssignInt_none_iff (a : Rational) (n : Int) :
    mulAssignInt a n = none ↔ (a.den = 0 ∧ n = 0) := by
  by_cases h : a.den = 0 ∧ n = 0 <;> simp [mulAssignInt, h]

theorem divAssignInt_none_iff (a : Rational) (n : Int) :
    divAssignInt a n = none ↔ (a.num = 0 ∧ n = 0) := by
  by_cases h : a.num = 0 ∧ n = 0 <;> simp [divAssignInt, h]

theorem norm_den_zero_iff {a : Rational} (ha : IsNormalized a) :
    a.den = 0 ↔ (isPosInf a ∨ isNegInf a) := by
  constructor
  · intro h
    rcases norm_infinite_num ha h with hn | hn
    · exact Or.inl ⟨h, by omega⟩
    · exact Or.inr ⟨h, by omega⟩
  · rintro (⟨h, _⟩ | ⟨h, _⟩) <;> exact h

theorem norm_num_zero_iff {a : Rational} (ha : IsNormalized a) :
    a.num = 0 ↔ a = ZERO := by
  constructor
  · exact norm_zero_eq ha
  · intro h; rw [h]; rfl

/-- C6: the six indeterminate forms of rational.rs fail explicitly (take the
`panic!` branch, modeled as `none`) and they are the only inputs among
finite and infinite normalized operands that do: opposite-sign infinite
addition, equal-infinity subtraction, zero-times-infinity multiplication,
zero-by-zero and infinity-by-infinity division, and the scalar
counterparts infinity `*=` 0 and zero `/=` 0. -/
theorem rational_indeterminate_forms (a b : Rational) (n : Int)
    (ha : IsNormalized a) (hb : IsNormalized b) :
    (addAssign a b = none ↔ ((isPosInf a ∧ isNegInf b) ∨ (isNegInf a ∧ isPosInf b)))
      ∧ (subAssign a b = none ↔ ((isPosInf a ∧ isPosInf b) ∨ (isNegInf a ∧ isNegInf b)))
      ∧ (mulAssign a b = none ↔
          ((a = ZERO ∧ (isPosInf b ∨ isNegInf b)) ∨ ((isPosInf a ∨ isNegInf a) ∧ b = ZERO)))
      ∧ (divAssign a b = none ↔
          ((a = ZERO ∧ b = ZERO) ∨ ((isPosInf a ∨ isNegInf a) ∧ (isPosInf b ∨ isNegInf b))))
      ∧ (mulAssignInt a n = none ↔ ((isPosInf a ∨ isNegInf a) ∧ n = 0))
      ∧ (divAssignInt a n = none ↔ (a = ZERO ∧ n = 0)) := by
  refine ⟨?_, ?_, ?_, ?_, ?_, ?_⟩
  · rw [addAssign_none_iff]
    constructor
    · rintro ⟨h1, h2, h3⟩
      rcases norm_infinite_num ha h1 with hn | hn <;>
        rcases norm_infinite_num hb h2 with hm | hm
      · omega
      · exact Or.inl ⟨⟨h1, by omega⟩, ⟨h2, by omega⟩⟩
      · exact Or.inr ⟨⟨h1, by omega⟩, ⟨h2, by omega⟩⟩
      · omega
    · rintro (⟨⟨h1, hp⟩, ⟨h2, hq⟩⟩ | ⟨⟨h1, hp⟩, ⟨h2, hq⟩⟩) <;> exact ⟨h1, h2, by omega⟩
  · rw [subAssign_none_iff a b hb]
    constructor
    · rintro ⟨h1, h2, h3⟩
      rcases norm_infinite_num ha h1 with hn | hn
      · exact Or.inl ⟨⟨h1, by omega⟩, ⟨h2, by omega⟩⟩
      · exact Or.inr ⟨⟨h1, by omega⟩, ⟨h2, by omega⟩⟩
    · rintro (⟨⟨h1, hp⟩, ⟨h2, hq⟩⟩ | ⟨⟨h1, hp⟩, ⟨h2, hq⟩⟩)
      · refine ⟨h1, h2, ?_⟩
        rcases norm_infinite_num ha h1 with hn | hn <;>
          rcases norm_infinite_num hb h2 with hm | hm <;> omega
      · refine ⟨h1, h2, ?_⟩
        rcases norm_infinite_num ha h1 with hn | hn <;>
          rcases norm_infinite_num hb h2 with hm | hm <;> omega
  · rw [mulAssign_none_iff]
    rw [norm_num_zero_iff ha, norm_num_zero_iff hb,
      norm_den_zero_iff ha, norm_den_zero_iff hb]
  · rw [divAssign_none_iff]
    rw [norm_num_zero_iff ha, norm_num_zero_iff hb,
      norm_den_zero_iff ha, norm_den_zero_iff hb]
  · rw [mulAssignInt_none_iff, norm_den_zero_iff ha]
  · rw [divAssignInt_none_iff, norm_num_zero_iff ha]

theorem rational_indeterminate_forms_witness :
    IsNormalized POSITIVE_INFINITY ∧ IsNormalized NEGATIVE_INFINITY ∧
      addAssign POSITIVE_INFINITY NEGATIVE_INFINITY = none ∧
      mulAssignInt POSITIVE_INFINITY 0 = none ∧
      addAssign POSITIVE_INFINITY POSITIVE_INFINITY ≠ none :=
  have h := rational_indeterminate_forms POSITIVE_INFINITY NEGATIVE_INFINITY 0
    (by decide) (by decide)
  have h2 := rational_indeterminate_forms POSITIVE_INFINITY POSITIVE_INFINITY 0
    (by decide) (by decide)
  ⟨by decide, by decide,
    h.1.mpr (Or.inl ⟨by decide, by decide⟩),
    h.2.2.2.2.1.mpr ⟨Or.inl (by decide), rfl⟩,
    fun hc => by
      rcases h2.1.mp hc with ⟨hp, hq⟩ | ⟨hp, hq⟩
      · exact absurd hq.2 (by decide)
      · exact absurd hp.2 (by decide)⟩

/-- C9: for normalized Rationals r and s, when neither the addition nor the
following subtraction takes an indeterminate-form failure branch,
(r + s) - s recovers exactly r. -/
theorem rational_add_sub_cancel (r s t u : Rational)
    (hr : IsNormalized r) (hs : IsNormalized s)
    (h1 : addAssign r s = some t) (h2 : subAssign t s = some u) : u = r := by
  by_cases hrd : r.den = 0
  · by_cases hsd : s.den = 0
    · have hnum : r.num = s.num := by
        by_contra hne
        simp [addAssign, hrd, hsd, hne] at h1
      have ht : addAssign r s = some r := by simp [addAssign, hrd, hsd, hnum]
      rw [ht] at h1
      obtain rfl : r = t := Option.some.inj h1
      have hnone : subAssign r s = none := by simp [subAssign, hrd, hsd, hnum]
      rw [hnone] at h2
      cases h2
    · have ht : addAssign r s = some r := by simp [addAssign, hrd, hsd]
      rw [ht] at h1
      obtain rfl : r = t := Option.some.inj h1
      have hsome : subAssign r s = some r := by simp [subAssign, hrd, hsd]
      rw [hsome] at h2
      exact (Option.some.inj h2).symm
  · by_cases hsd : s.den = 0
    · have ht : addAssign r s = some s := by simp [addAssign, hrd, hsd]
      rw [ht] at h1
      obtain rfl : s = t := Option.some.inj h1
      have hnone : subAssign s s = none := by simp [subAssign, hsd]
      rw [hnone] at h2
      cases h2
    · obtain ⟨t2, ht2, htd, htn, htq⟩ := addAssign_finite r s hrd hsd
      rw [ht2] at h1
      obtain rfl : t2 = t := Option.some.inj h1
      obtain ⟨u2, hu2, hud, hun, huq⟩ := subAssign_finite t2 s htd hsd
      rw [hu2] at h2
      obtain rfl : u2 = u := Option.some.inj h2
      have hq : toQ u2 = toQ r := by rw [huq, htq]; ring
      exact reduced_eq_of_cross hun hr hud hrd ((toQ_eq_iff hud hrd).mp hq)

theorem rational_add_sub_cancel_witness :
    IsNormalized (⟨1, 2⟩ : Rational) ∧ IsNormalized (⟨1, 3⟩ : Rational) ∧
      addAssign ⟨1, 2⟩ ⟨1, 3⟩ = some ⟨5, 6⟩ ∧ subAssign ⟨5, 6⟩ ⟨1, 3⟩ = some ⟨1, 2⟩ ∧
      (⟨1, 2⟩ : Rational) = ⟨1, 2⟩ :=
  ⟨by decide, by decide, by decide, by decide,
    rational_add_sub_cancel ⟨1, 2⟩ ⟨1, 3⟩ ⟨5, 6⟩ ⟨1, 2⟩
      (by decide) (by decide) (by decide) (by decide)⟩

/-! ## SAT engine (src/sat/solver.rs, with Lit from src/utils/lit.rs) -/

/-- `enum LBool { Undef, True, False }` from src/utils/lit.rs. -/
inductive LBool where
  | Undef
  | True
  | False
deriving DecidableEq, BEq, Repr

/-- `struct Lit { x: usize, sign: bool }`; `var()` and `is_positive()` are
the field projections. -/
structure Lit where
  x : Nat
  sign : Bool
deriving DecidableEq, Repr

/-- `struct Var` of sat/solver.rs (all six fields, in source order). -/
structure SatVar where
  value : LBool
  current_level_vars : List Nat
  decision_var : Option Nat
  reason : Option Nat
  pos_clauses : List Nat
  neg_clauses : List Nat
deriving DecidableEq, Repr

/-- `Var::default()`. -/
instance : Inhabited SatVar :=
  ⟨⟨LBool.Undef, [], none, none, [], []⟩⟩

/-- `struct Solver`.  The `listeners` map holds callbacks and cannot be
carried in a first-order state; `notified` records the sequence of
`notify(var)` invocations instead (each such invocation runs every
callback registered for `var`, so an unchanged log means no callback
fired). -/
structure SatState where
  vars : List SatVar
  clauses : List (List Lit)
  prop_q : List Nat
  notified : List Nat
deriving DecidableEq, Repr

/-- `Solver::new()` / `Solver::default()`. -/
def newSolver : SatState := ⟨[], [], [], []⟩

/-- `Solver::add_var`. -/
def add_var (s : SatState) : SatState × Nat :=
  ({ s with vars := s.vars ++ [default] }, s.vars.length)

/-- `self.vars[i]`.  Rust indexing would fail out of bounds; the embedded
runs and theorems keep indices in bounds, where the `default` fallback is
never consulted. -/
def getVar (s : SatState) (i : Nat) : SatVar := (s.vars[i]?).getD default

/-- In-place update of `self.vars[i]` (`List.set` is a no-op out of
bounds, where Rust would fail). -/
def modifyVar (s : SatState) (i : Nat) (f : SatVar → SatVar) : SatState :=
  { s with vars := s.vars.set i (f (getVar s i)) }

/-- `Solver::value`. -/
def value (s : SatState) (v : Nat) : LBool := (getVar s v).value

/-- `Solver::lit_value`. -/
def litValue (s : SatState) (l : Lit) : LBool :=
  match value s l.x with
  | LBool.Undef => LBool.Undef
  | val => if (val == LBool.True) == l.sign then LBool.True else LBool.False

/-- `self.vars[x].pos_clauses.push(ci)`. -/
def pushPos (s : SatState) (x ci : Nat) : SatState :=
  modifyVar s x (fun v => { v with pos_clauses := v.pos_clauses ++ [ci] })

/-- `self.vars[x].neg_clauses.push(ci)`. -/
def pushNeg (s : SatState) (x ci : Nat) : SatState :=
  modifyVar s x (fun v => { v with neg_clauses := v.neg_clauses ++ [ci] })

/-- `Solver::enqueue`. -/
def enqueue (s : SatState) (l : Lit) (reason : Option Nat) : SatState × Bool :=
  match value s l.x with
  | LBool.Undef =>
      let s1 := modifyVar s l.x (fun v =>
        { v with value := if l.sign then LBool.True else LBool.False, reason := reason })
      let s2 := { s1 with prop_q := s1.prop_q ++ [l.x] }
      let s3 := { s2 with notified := s2.notified ++ [l.x] }
      (s3, true)
  | LBool.True => (s, l.sign)
  | LBool.False => (s, !l.sign)

/-- `self.clauses[ci]` (empty fallback never consulted in-bounds). -/
def clauseAt (s : SatState) (ci : Nat) : List Lit := (s.clauses[ci]?).getD []

def setClauseAt (s : SatState) (ci : Nat) (c : List Lit) : SatState :=
  { s with clauses := s.clauses.set ci c }

/-- `c[i]` on a clause (fallback never consulted in-bounds). -/
def nthLit (cl : List Lit) (i : Nat) : Lit := (cl[i]?).getD ⟨0, true⟩

/-- `Vec::swap(i, j)`. -/
def swapL (c : List Lit) (i j : Nat) : List Lit :=
  (c.set i (nthLit c j)).set j (nthLit c i)

/-- The scan `for i in 2..len { if lit_value(c[i]) != False { ... } }`,
returning the first such index. -/
def findNonFalse (s : SatState) : List Lit → Nat → Option Nat
  | [], _ => none
  | l :: tl, i => if litValue s l ≠ LBool.False then some i else findNonFalse s tl (i + 1)

/-- `Solver::propagate`. -/
def propagate (s0 : SatState) (ci v : Nat) : SatState × Bool :=
  let s := if (nthLit (clauseAt s0 ci) 0).x = v
    then setClauseAt s0 ci (swapL (clauseAt s0 ci) 0 1) else s0
  if litValue s (nthLit (clauseAt s ci) 0) = LBool.True then
    let w := nthLit (clauseAt s ci) 1
    (if w.sign then pushPos s w.x ci else pushNeg s w.x ci, true)
  else
    match findNonFalse s ((clauseAt s ci).drop 2) 2 with
    | some i =>
        let s2 := setClauseAt s ci (swapL (clauseAt s ci) 1 i)
        let w := nthLit (clauseAt s2 ci) 1
        ((if w.sign then pushPos s2 w.x ci else pushNeg s2 w.x ci), true)
    | none =>
        let s2 := if value s v = LBool.True then pushPos s v ci else pushNeg s v ci
        enqueue s2 (nthLit (clauseAt s2 ci) 0) (some ci)

inductive PropRes where
  | ok (s : SatState)
  | conflict (s : SatState) (ci : Nat)

/-- The `for clause_id in clauses { if !self.propagate(..) { .. } }` loop
of `Solver::assert`; on conflict the remaining taken clause ids are
dropped, exactly as the moved-out vector is in the source. -/
def propLoop (s : SatState) (cs : List Nat) (v : Nat) : PropRes :=
  match cs with
  | [] => PropRes.ok s
  | ci :: rest =>
      let r := propagate s ci v
      if r.2 then propLoop r.1 rest v else PropRes.conflict r.1 ci

/-- The `while let Some(var) = self.prop_q.pop_front()` drain of
`Solver::assert`.  Each loop iteration pops one queue entry and entries
are only ever pushed for previously-Undef variables, so
`vars.length + prop_q.length + 1` fuel always suffices; running out of
fuel would yield `none`, which no reachable run does. -/
def drain (fuel : Nat) (l : Lit) (s : SatState) : Option (SatState × Bool) :=
  match fuel with
  | 0 => none
  | fuel + 1 =>
      match s.prop_q with
      | [] => some (s, true)
      | v :: rest =>
          let s1 := { s with prop_q := rest }
          let s2 := modifyVar s1 l.x (fun vr =>
            { vr with current_level_vars := vr.current_level_vars ++ [v] })
          let s3 := modifyVar s2 v (fun vr => { vr with decision_var := some l.x })
          let cs := if value s3 v = LBool.True
            then (getVar s3 v).neg_clauses else (getVar s3 v).pos_clauses
          let s4 := if value s3 v = LBool.True
            then modifyVar s3 v (fun vr => { vr with neg_clauses := [] })
            else modifyVar s3 v (fun vr => { vr with pos_clauses := [] })
          match propLoop s4 cs v with
          | PropRes.ok s5 => drain fuel l s5
          | PropRes.conflict s5 _ =>
              let s6 := modifyVar s5 l.x (fun vr => { vr with current_level_vars := [] })
              some (s6, false)

/-- `Solver::assert`.  Note the source discards the Boolean result of the
initial `enqueue` (line 72: `self.enqueue(lit, None);`). -/
def assertLit (s0 : SatState) (l : Lit) : Option (SatState × Bool) :=
  let s1 := (enqueue s0 l none).1
  drain (s1.vars.length + s1.prop_q.length + 1) l s1

/-- `if lit.is_positive() { ..pos_clauses.push(ci) } else { ..neg_clauses.push(ci) }`,
as it appears in `add_clause` (lines 60-66). -/
def pushOf (s : SatState) (l : Lit) (ci : Nat) : SatState :=
  if l.sign then pushPos s l.x ci else pushNeg s l.x ci

/-- `Solver::add_clause`. -/
def addClause (s : SatState) (lits : List Lit) : Option (SatState × Bool) :=
  if lits.length = 0 then some (s, false)
  else if lits.length = 1 then assertLit s (nthLit lits 0)
  else
    let ci := s.clauses.length
    let s1 := (lits.take 2).foldl (fun acc l => pushOf acc l ci) s
    let s2 := { s1 with clauses := s1.clauses ++ [lits] }
    some (s2, true)

/-- `Solver::retract`: the body consists solely of the two bound and
assignment assertions (modeled as `none` branches); it changes no state. -/
def retract (s : SatState) (v : Nat) : Option SatState :=
  if v < s.vars.length then
    if value s v ≠ LBool.Undef then some s else none
  else none

/-- A solver with two fresh variables (two `add_var` calls). -/
def demoBase : SatState := (add_var (add_var newSolver).1).1

/-- Add clause (v0 ∨ v1), assert ¬v0: unit propagation forces v1. -/
def c2run : Option SatState := do
  let p1 ← addClause demoBase [⟨0, true⟩, ⟨1, true⟩]
  let p2 ← assertLit p1.1 ⟨0, false⟩
  pure p2.1

/-- C2: the spec says `retract(var)` unassigns `var` and every assigned
variable reachable through clauses mentioning it; the code of
`Solver::retract` only checks its two preconditions and changes nothing.
After clause (v0 ∨ v1) and assert(¬v0), v1 is assigned True; retract(1)
returns with v1 still assigned True. -/
theorem retract_is_stub :
    c2run.map (fun s => value s 1) = some LBool.True ∧
      c2run.bind (fun s => retract s 1) = c2run ∧
      (c2run.bind (fun s => retract s 1)).map (fun s => value s 1) ≠ some LBool.Undef := by
  decide

/-- Clause (v0 ∨ v1); assert v0 (externally), then assert ¬v1. -/
def c3run : Option SatState := do
  let p1 ← addClause demoBase [⟨0, true⟩, ⟨1, true⟩]
  let p2 ← assertLit p1.1 ⟨0, true⟩
  let p3 ← assertLit p2.1 ⟨1, false⟩
  pure p3.1

/-- C3 counterexample: in the reached state, clause 0 = (v0 ∨ v1) has every
literal except v0 false and v0 is True, yet v0's reason is `none` (it was
asserted externally), not clause 0's index as the claim requires. -/
theorem assert_unit_reason_counterexample :
    c3run.map (fun s =>
        (s.clauses, litValue s ⟨1, true⟩, litValue s ⟨0, true⟩, (getVar s 0).reason))
      = some ([[⟨0, true⟩, ⟨1, true⟩]], LBool.False, LBool.True, none) := by
  decide

/-- Clause (v0 ∨ v1); assert ¬v0, driving unit propagation of v1. -/
def c4run : Option SatState := do
  let p1 ← addClause demoBase [⟨0, true⟩, ⟨1, true⟩]
  let p2 ← assertLit p1.1 ⟨0, false⟩
  pure p2.1

/-- C4 counterexample: after propagation, clause 0 is stored as
(v1 ∨ v0) and its position-1 watched literal is the positive literal v0,
yet variable 0 holds clause 0 in its negative watch vector and not in the
positive one — `propagate` re-registers the watch by the variable's
current value (lines 133-137), not by the literal's sign. -/
theorem watch_side_counterexample :
    c4run.map (fun s =>
        (s.clauses, (getVar s 0).pos_clauses, (getVar s 0).neg_clauses,
          (getVar s 1).pos_clauses))
      = some ([[⟨1, true⟩, ⟨0, true⟩]], [], [0], [0]) := by
  decide

/-- One fresh variable. -/
def c10base : SatState := (add_var newSolver).1

/-- Assert v0, then assert the contradicting ¬v0. -/
def c10run : Option (SatState × Bool) := do
  let p1 ← assertLit c10base ⟨0, true⟩
  assertLit p1.1 ⟨0, false⟩

/-- C10 counterexample: with v0 already True, `assert(¬v0)` returns `true`
(the claim requires `false` on a contradicting assignment): `assert`
discards the Boolean result of its initial `enqueue`. -/
theorem assert_conflicting_counterexample :
    c10run.map (fun p => (value p.1 0, p.2)) = some (LBool.True, true) := by
  decide

/-- C10 (amended): asserting a literal on an already-assigned variable with
an empty propagation queue returns the state completely unchanged (values,
reasons, watch lists, queue, and the notification log, hence no listener
callback) paired with `true` — whether the literal agrees with or
contradicts the assignment, because `assert` discards `enqueue`'s result. -/
theorem assert_on_assigned_is_noop (s : SatState) (l : Lit)
    (hq : s.prop_q = []) (hv : value s l.x ≠ LBool.Undef) :
    assertLit s l = some (s, true) := by
  have he : (enqueue s l none).1 = s := by
    cases hval : value s l.x with
    | Undef => exact absurd hval hv
    | True => simp [enqueue, hval]
    | False => simp [enqueue, hval]
  simp only [assertLit, he, hq]
  simp [drain, hq]

def c10wstate : SatState := ⟨[⟨LBool.True, [], none, none, [], []⟩], [], [], []⟩

theorem assert_on_assigned_is_noop_witness :
    c10wstate.prop_q = [] ∧ value c10wstate 0 ≠ LBool.Undef ∧
      assertLit c10wstate ⟨0, false⟩ = some (c10wstate, true) :=
  ⟨rfl, by decide, assert_on_assigned_is_noop c10wstate ⟨0, false⟩ rfl (by decide)⟩

theorem getVar_modifyVar (s : SatState) (i j : Nat) (f : SatVar → SatVar) :
    getVar (modifyVar s i f) j =
      if i = j ∧ i < s.vars.length then f (getVar s i) else getVar s j := by
  by_cases hij : i = j
  · subst hij
    by_cases hi : i < s.vars.length
    · simp [getVar, modifyVar, List.getElem?_set, hi]
    · have hnone : s.vars[i]? = none := by
        rw [List.getElem?_eq_none]
        omega
      simp [getVar, modifyVar, List.getElem?_set, hi, hnone]
  · simp [getVar, modifyVar, List.getElem?_set, hij]

theorem vars_length_modifyVar (s : SatState) (i : Nat) (f : SatVar → SatVar) :
    (modifyVar s i f).vars.length = s.vars.length := by
  simp [modifyVar]

theorem clauseAt_modifyVar (s : SatState) (i : Nat) (f : SatVar → SatVar) (ci : Nat) :
    clauseAt (modifyVar s i f) ci = clauseAt s ci := rfl

theorem litValue_undef_iff (s : SatState) (l : Lit) :
    litValue s l = LBool.Undef ↔ value s l.x = LBool.Undef := by
  have hbT : (LBool.True == LBool.True) = true := by decide
  have hbF : (LBool.False == LBool.True) = false := by decide
  cases hv : value s l.x <;> cases hs : l.sign <;>
    simp [litValue, hv, hs, hbT, hbF]

theorem findNonFalse_none (s : SatState) (ls : List Lit)
    (h : ∀ l ∈ ls, litValue s l = LBool.False) :
    ∀ i, findNonFalse s ls i = none := by
  induction ls with
  | nil => intro i; rfl
  | cons hd tl ih =>
    intro i
    have hhd := h hd (by simp)
    simp only [findNonFalse, hhd]
    simp only [ne_eq, not_true_eq_false, if_false]
    exact ih (fun l hl => h l (by simp [hl])) (i + 1)

theorem enqueue_undef (s : SatState) (l : Lit) (reason : Option Nat)
    (hu : value s l.x = LBool.Undef) (hb : l.x < s.vars.length) :
    ∃ s3, enqueue s l reason = (s3, true) ∧
      litValue s3 l = LBool.True ∧ (getVar s3 l.x).reason = reason ∧
      s3.clauses = s.clauses ∧ s3.vars.length = s.vars.length := by
  have hbT : (LBool.True == LBool.True) = true := by decide
  have hbF : (LBool.False == LBool.True) = false := by decide
  set f : SatVar → SatVar := fun vr =>
    { vr with value := if l.sign then LBool.True else LBool.False, reason := reason }
    with hf
  set u : SatState := modifyVar s l.x f with hudef
  have hg := getVar_modifyVar s l.x l.x f
  rw [if_pos ⟨rfl, hb⟩] at hg
  have henq : enqueue s l reason =
      ({ u with prop_q := u.prop_q ++ [l.x], notified := u.notified ++ [l.x] }, true) := by
    unfold enqueue
    rw [hu]
  refine ⟨_, henq, ?_, ?_, rfl, ?_⟩
  · show litValue u l = LBool.True
    unfold litValue value
    rw [show getVar u l.x = f (getVar s l.x) from hg]
    cases hsign : l.sign <;> simp [hf, hsign, hbT, hbF]
  · show (getVar u l.x).reason = reason
    rw [show getVar u l.x = f (getVar s l.x) from hg]
  · show u.vars.length = s.vars.length
    rw [hudef]
    exact vars_length_modifyVar s l.x f

/-- C3 (amended): when unit propagation itself reduces clause `ci` to a
unit — its head literal is on a variable other than the just-assigned `v`
and unassigned, while every other literal is false — `propagate` succeeds
and enqueues that head literal with `reason = ci`, leaving it True with
clause `ci` recorded as its reason.  (A unit clause whose remaining
literal was already satisfied before — by an external `assert` with
reason `none` or by an earlier clause — keeps its old reason, which is the
part of the original claim that fails.) -/
theorem propagate_unit_reason (s : SatState) (ci v : Nat)
    (hlen : 2 ≤ (clauseAt s ci).length)
    (hx : (nthLit (clauseAt s ci) 0).x ≠ v)
    (hbound : (nthLit (clauseAt s ci) 0).x < s.vars.length)
    (hundef : litValue s (nthLit (clauseAt s ci) 0) = LBool.Undef)
    (hfalse : ∀ l ∈ (clauseAt s ci).drop 1, litValue s l = LBool.False) :
    ∃ s2, propagate s ci v = (s2, true) ∧
      litValue s2 (nthLit (clauseAt s ci) 0) = LBool.True ∧
      (getVar s2 (nthLit (clauseAt s ci) 0).x).reason = some ci := by
  have hfalse2 : ∀ l ∈ (clauseAt s ci).drop 2, litValue s l = LBool.False := by
    intro l hl
    apply hfalse
    have : (clauseAt s ci).drop 2 = ((clauseAt s ci).drop 1).drop 1 := by
      rw [List.drop_drop]
    rw [this] at hl
    exact List.drop_subset _ _ hl
  have hfind : findNonFalse s ((clauseAt s ci).drop 2) 2 = none :=
    findNonFalse_none s _ hfalse2 2
  have hnotTrue : ¬ (litValue s (nthLit (clauseAt s ci) 0) = LBool.True) := by
    rw [hundef]; intro h; cases h
  have hvundef : value s (nthLit (clauseAt s ci) 0).x = LBool.Undef :=
    (litValue_undef_iff s _).mp hundef
  -- the watch re-registration step (by the value of v) touches only
  -- variable v's watch vectors
  set L := nthLit (clauseAt s ci) 0 with hLdef
  set s2 := if value s v = LBool.True then pushPos s v ci else pushNeg s v ci with hs2def
  have hs2vars : s2.vars.length = s.vars.length := by
    rw [hs2def]
    split <;> apply vars_length_modifyVar
  have hs2clause : clauseAt s2 ci = clauseAt s ci := by
    rw [hs2def]
    split <;> rfl
  have hs2val : value s2 L.x = LBool.Undef := by
    rw [hs2def]
    unfold value pushPos pushNeg
    split <;> rw [getVar_modifyVar] <;> split
    · rename_i hcond; exact absurd hcond.1 (by omega)
    · exact hvundef
    · rename_i hcond; exact absurd hcond.1 (by omega)
    · exact hvundef
  obtain ⟨s3, henq, hval3, hreason3, _, _⟩ :=
    enqueue_undef s2 L (some ci) hs2val (by omega)
  refine ⟨s3, ?_, hval3, hreason3⟩
  simp only [propagate]
  rw [if_neg hx, if_neg hnotTrue, hfind, ← hs2def, hs2clause, ← hLdef]
  exact henq

def c3wstate : SatState :=
  ⟨[default, ⟨LBool.False, [], none, none, [], []⟩], [[⟨0, true⟩, ⟨1, true⟩]], [], []⟩

theorem propagate_unit_reason_witness :
    2 ≤ (clauseAt c3wstate 0).length ∧
      (∃ s2, propagate c3wstate 0 1 = (s2, true) ∧
        litValue s2 (nthLit (clauseAt c3wstate 0) 0) = LBool.True ∧
        (getVar s2 (nthLit (clauseAt c3wstate 0) 0).x).reason = some 0) :=
  ⟨by decide, propagate_unit_reason c3wstate 0 1 (by decide) (by decide) (by decide)
    (by decide) (by decide)⟩

/-! ### C4: the add_clause watch invariant -/

/-- A solver with `nv` fresh variables and no clauses. -/
def initState (nv : Nat) : SatState := ⟨List.replicate nv default, [], [], []⟩

/-- A sequence of `add_clause` calls (the returned Boolean is not consumed). -/
def runAddClauses : List (List Lit) → SatState → Option SatState
  | [], s => some s
  | cl :: rest, s =>
      match addClause s cl with
      | some p => runAddClauses rest p.1
      | none => none

/-- The watch vector of variable `x` for the side `b` (`true` = positive
occurrences, `false` = negative). -/
def watchListOf (s : SatState) (x : Nat) (b : Bool) : List Nat :=
  if b then (getVar s x).pos_clauses else (getVar s x).neg_clauses

/-- Exactly the variables of the first two literals of each clause hold
the clause's index, on the side matching the literal's sign. -/
def WatchInv (s : SatState) : Prop :=
  ∀ ci x b, ci ∈ watchListOf s x b ↔
    (ci < s.clauses.length ∧
      ((x = (nthLit (s.clauses.getD ci []) 0).x ∧ b = (nthLit (s.clauses.getD ci []) 0).sign) ∨
       (x = (nthLit (s.clauses.getD ci []) 1).x ∧ b = (nthLit (s.clauses.getD ci []) 1).sign)))

theorem watchListOf_pushOf (s : SatState) (l : Lit) (ci : Nat) (x : Nat) (b : Bool)
    (hb : l.x < s.vars.length) :
    watchListOf (pushOf s l ci) x b =
      if x = l.x ∧ b = l.sign then watchListOf s x b ++ [ci] else watchListOf s x b := by
  by_cases hx : x = l.x
  · cases hsign : l.sign <;> cases b <;>
      simp [pushOf, pushPos, pushNeg, watchListOf, getVar_modifyVar, hx, hsign, hb]
  · have hx2 : ¬ l.x = x := fun h => hx h.symm
    cases hsign : l.sign <;> cases b <;>
      simp [pushOf, pushPos, pushNeg, watchListOf, getVar_modifyVar, hx, hx2, hsign, hb]

theorem watchListOf_clauses_update (s : SatState) (cs : List (List Lit)) (x : Nat) (b : Bool) :
    watchListOf { s with clauses := cs } x b = watchListOf s x b := rfl

theorem vars_length_pushOf (s : SatState) (l : Lit) (ci : Nat) :
    (pushOf s l ci).vars.length = s.vars.length := by
  unfold pushOf pushPos pushNeg
  split <;> apply vars_length_modifyVar

theorem clauses_pushOf (s : SatState) (l : Lit) (ci : Nat) :
    (pushOf s l ci).clauses = s.clauses := by
  unfold pushOf pushPos pushNeg
  split <;> rfl

theorem clauses_update_eq (X : SatState) (cs : List (List Lit)) :
    ({ X with clauses := cs } : SatState).clauses = cs := rfl

theorem watchInv_clauses_update (X : SatState) (cs : List (List Lit)) :
    WatchInv { X with clauses := cs } ↔
      ∀ ci x b, ci ∈ watchListOf X x b ↔
        (ci < cs.length ∧
          ((x = (nthLit (cs.getD ci []) 0).x ∧ b = (nthLit (cs.getD ci []) 0).sign) ∨
           (x = (nthLit (cs.getD ci []) 1).x ∧ b = (nthLit (cs.getD ci []) 1).sign))) :=
  Iff.rfl

theorem getD_append_lt {α : Type} (xs ys : List α) (n : Nat) (d : α) (h : n < xs.length) :
    (xs ++ ys).getD n d = xs.getD n d := by
  rw [List.getD_eq_getElem?_getD, List.getD_eq_getElem?_getD, List.getElem?_append]
  rw [if_pos h]

theorem getD_append_self {α : Type} (xs : List α) (y : α) (d : α) :
    (xs ++ [y]).getD xs.length d = y := by
  rw [List.getD_eq_getElem?_getD, List.getElem?_append]
  rw [if_neg (by omega)]
  simp

theorem addClause_ge2 (s : SatState) (cl : List Lit)
    (hlen : 2 ≤ cl.length)
    (hbound : ∀ l ∈ cl.take 2, l.x < s.vars.length)
    (hinv : WatchInv s) :
    ∃ s2, addClause s cl = some (s2, true) ∧ WatchInv s2 ∧
      s2.clauses = s.clauses ++ [cl] ∧ s2.vars.length = s.vars.length := by
  obtain ⟨l0, l1, rest, rfl⟩ : ∃ l0 l1 rest, cl = l0 :: l1 :: rest := by
    match cl, hlen with
    | l0 :: l1 :: rest, _ => exact ⟨l0, l1, rest, rfl⟩
  have hb0 : l0.x < s.vars.length := hbound l0 (by simp)
  have hb1 : l1.x < s.vars.length := hbound l1 (by simp)
  have heq : addClause s (l0 :: l1 :: rest) =
      some ({ pushOf (pushOf s l0 s.clauses.length) l1 s.clauses.length with
        clauses := (pushOf (pushOf s l0 s.clauses.length) l1 s.clauses.length).clauses
          ++ [l0 :: l1 :: rest] }, true) := rfl
  refine ⟨_, heq, ?_, ?_, ?_⟩
  · rw [watchInv_clauses_update]
    intro ci x b
    rw [clauses_pushOf, clauses_pushOf]
    rw [watchListOf_pushOf _ l1 _ _ _ (by rw [vars_length_pushOf]; exact hb1)]
    rw [watchListOf_pushOf _ l0 _ _ _ hb0]
    have h0 := hinv ci x b
    by_cases hlt : ci < s.clauses.length
    · rw [getD_append_lt _ _ _ _ hlt]
      have hne : ¬ (ci = s.clauses.length) := by omega
      have hlt2 : ci < (s.clauses ++ [l0 :: l1 :: rest]).length := by
        simp only [List.length_append, List.length_singleton]
        omega
      by_cases hC1 : x = l1.x ∧ b = l1.sign <;> by_cases hC0 : x = l0.x ∧ b = l0.sign
      · rw [if_pos hC1, if_pos hC0]
        simp only [List.mem_append, List.mem_singleton, hne, or_false, or_assoc, or_self]
        rw [h0]
        constructor
        · rintro ⟨_, h6⟩; exact ⟨hlt2, h6⟩
        · rintro ⟨_, h6⟩; exact ⟨hlt, h6⟩
      · rw [if_pos hC1, if_neg hC0]
        simp only [List.mem_append, List.mem_singleton, hne, or_false]
        rw [h0]
        constructor
        · rintro ⟨_, h6⟩; exact ⟨hlt2, h6⟩
        · rintro ⟨_, h6⟩; exact ⟨hlt, h6⟩
      · rw [if_neg hC1, if_pos hC0]
        simp only [List.mem_append, List.mem_singleton, hne, or_false]
        rw [h0]
        constructor
        · rintro ⟨_, h6⟩; exact ⟨hlt2, h6⟩
        · rintro ⟨_, h6⟩; exact ⟨hlt, h6⟩
      · rw [if_neg hC1, if_neg hC0]
        rw [h0]
        constructor
        · rintro ⟨_, h6⟩; exact ⟨hlt2, h6⟩
        · rintro ⟨_, h6⟩; exact ⟨hlt, h6⟩
    · by_cases heq2 : ci = s.clauses.length
      · subst heq2
        rw [getD_append_self]
        have hbase : s.clauses.length ∉ watchListOf s x b := by
          rw [h0]
          rintro ⟨h5, _⟩
          omega
        have hl2 : s.clauses.length < (s.clauses ++ [l0 :: l1 :: rest]).length := by
          simp
        have hn0 : nthLit (l0 :: l1 :: rest) 0 = l0 := by simp [nthLit]
        have hn1 : nthLit (l0 :: l1 :: rest) 1 = l1 := by simp [nthLit]
        rw [hn0, hn1]
        by_cases hC1 : x = l1.x ∧ b = l1.sign <;> by_cases hC0 : x = l0.x ∧ b = l0.sign
        · rw [if_pos hC1, if_pos hC0]
          constructor
          · intro _; exact ⟨hl2, Or.inl hC0⟩
          · intro _; simp
        · rw [if_pos hC1, if_neg hC0]
          constructor
          · intro _; exact ⟨hl2, Or.inr hC1⟩
          · intro _; simp
        · rw [if_neg hC1, if_pos hC0]
          constructor
          · intro _; exact ⟨hl2, Or.inl hC0⟩
          · intro _; simp
        · rw [if_neg hC1, if_neg hC0]
          constructor
          · intro h5; exact absurd h5 hbase
          · rintro ⟨_, h5 | h5⟩
            · exact absurd h5 hC0
            · exact absurd h5 hC1
      · have hge : ¬ (ci < (s.clauses ++ [l0 :: l1 :: rest]).length) := by
          simp only [List.length_append, List.length_singleton]
          omega
        have hbase : ci ∉ watchListOf s x b := by
          rw [h0]
          rintro ⟨h5, _⟩
          omega
        have hdone : ∀ L2 : List Nat, (∀ j ∈ L2, j ∈ watchListOf s x b ∨ j = s.clauses.length) →
            (ci ∈ L2 ↔ (ci < (s.clauses ++ [l0 :: l1 :: rest]).length ∧
              ((x = (nthLit ((s.clauses ++ [l0 :: l1 :: rest]).getD ci []) 0).x ∧
                  b = (nthLit ((s.clauses ++ [l0 :: l1 :: rest]).getD ci []) 0).sign) ∨
               (x = (nthLit ((s.clauses ++ [l0 :: l1 :: rest]).getD ci []) 1).x ∧
                  b = (nthLit ((s.clauses ++ [l0 :: l1 :: rest]).getD ci []) 1).sign)))) := by
          intro L2 hsub
          constructor
          · intro h5
            rcases hsub ci h5 with h6 | h6
            · exact absurd h6 hbase
            · exact absurd h6 heq2
          · rintro ⟨h5, _⟩
            exact absurd h5 hge
        by_cases hC1 : x = l1.x ∧ b = l1.sign <;> by_cases hC0 : x = l0.x ∧ b = l0.sign
        · rw [if_pos hC1, if_pos hC0]
          apply hdone
          intro j hj
          rcases List.mem_append.mp hj with hj2 | hj2
          · rcases List.mem_append.mp hj2 with hj3 | hj3
            · exact Or.inl hj3
            · exact Or.inr (List.mem_singleton.mp hj3)
          · exact Or.inr (List.mem_singleton.mp hj2)
        · rw [if_pos hC1, if_neg hC0]
          apply hdone
          intro j hj
          rcases List.mem_append.mp hj with hj2 | hj2
          · exact Or.inl hj2
          · exact Or.inr (List.mem_singleton.mp hj2)
        · rw [if_neg hC1, if_pos hC0]
          apply hdone
          intro j hj
          rcases List.mem_append.mp hj with hj2 | hj2
          · exact Or.inl hj2
          · exact Or.inr (List.mem_singleton.mp hj2)
        · rw [if_neg hC1, if_neg hC0]
          apply hdone
          intro j hj
          exact Or.inl hj
  · show (pushOf (pushOf s l0 s.clauses.length) l1 s.clauses.length).clauses
        ++ [l0 :: l1 :: rest] = s.clauses ++ [l0 :: l1 :: rest]
    rw [clauses_pushOf, clauses_pushOf]
  · show (pushOf (pushOf s l0 s.clauses.length) l1 s.clauses.length).vars.length
      = s.vars.length
    rw [vars_length_pushOf, vars_length_pushOf]

theorem runAddClauses_invariant :
    ∀ (css : List (List Lit)) (s : SatState),
      (∀ cl ∈ css, 2 ≤ cl.length) →
      (∀ cl ∈ css, ∀ l ∈ cl.take 2, l.x < s.vars.length) →
      WatchInv s →
      ∀ s2, runAddClauses css s = some s2 →
        WatchInv s2 ∧ s2.clauses = s.clauses ++ css ∧ s2.vars.length = s.vars.length := by
  intro css
  induction css with
  | nil =>
    intro s _ _ hinv s2 hrun
    simp only [runAddClauses] at hrun
    obtain rfl : s = s2 := Option.some.inj hrun
    exact ⟨hinv, by simp, rfl⟩
  | cons cl rest ih =>
    intro s hlen hbound hinv s2 hrun
    obtain ⟨s1, h1, hinv1, hcl1, hvars1⟩ :=
      addClause_ge2 s cl (hlen cl (by simp)) (hbound cl (by simp)) hinv
    simp only [runAddClauses, h1] at hrun
    obtain ⟨hinv2, hcl2, hvars2⟩ := ih s1 (fun c hc => hlen c (by simp [hc]))
      (fun c hc l hl => by rw [hvars1]; exact hbound c (by simp [hc]) l hl) hinv1 s2 hrun
    refine ⟨hinv2, ?_, by omega⟩
    rw [hcl2, hcl1]
    simp

/-- C4 (amended): after any sequence of `add_clause` calls on clauses of
length ≥ 2 over allocated variables (no `assert` in between), the stored
clauses are exactly the added ones and a clause index sits in variable
x's watch vector for side b exactly when (x, b) is the variable and sign
of one of that clause's first two literals — each clause is watched by
precisely its first two literals, on the side matching the literal's
sign.  (Propagation during `assert` re-registers a watched clause on the
side matching the variable's current value instead of the literal's
sign, which is why the claim fails over assert-reachable states.) -/
theorem add_clause_watch_invariant (css : List (List Lit)) (nv : Nat) (s : SatState)
    (hlen : ∀ cl ∈ css, 2 ≤ cl.length)
    (hbound : ∀ cl ∈ css, ∀ l ∈ cl.take 2, l.x < nv)
    (hrun : runAddClauses css (initState nv) = some s) :
    s.clauses = css ∧
      ∀ ci x b, ci ∈ watchListOf s x b ↔
        (ci < css.length ∧
          ((x = (nthLit (css.getD ci []) 0).x ∧ b = (nthLit (css.getD ci []) 0).sign) ∨
           (x = (nthLit (css.getD ci []) 1).x ∧ b = (nthLit (css.getD ci []) 1).sign))) := by
  have hempty : ∀ x b, watchListOf (initState nv) x b = [] := by
    intro x b
    have hd : ((List.replicate nv (default : SatVar))[x]?).getD default = default := by
      by_cases hx : x < nv <;> simp [List.getElem?_replicate, hx]
    unfold watchListOf getVar initState
    rw [hd]
    cases b <;> rfl
  have hinv0 : WatchInv (initState nv) := by
    intro ci x b
    rw [hempty]
    constructor
    · intro h5
      exact absurd h5 (List.not_mem_nil ci)
    · rintro ⟨h5, _⟩
      exact absurd h5 (by simp [initState])
  obtain ⟨hinv, hcl, _⟩ := runAddClauses_invariant css (initState nv) hlen
    (by intro cl hc l hl; simpa [initState] using hbound cl hc l hl) hinv0 s hrun
  have hcl2 : s.clauses = css := by simpa [initState] using hcl
  refine ⟨hcl2, ?_⟩
  intro ci x b
  have h6 := hinv ci x b
  rw [hcl2] at h6
  exact h6

def c4wstate : SatState :=
  ⟨[⟨LBool.Undef, [], none, none, [0], []⟩, ⟨LBool.Undef, [], none, none, [], [0]⟩],
    [[⟨0, true⟩, ⟨1, false⟩]], [], []⟩

theorem add_clause_watch_invariant_witness :
    (∀ cl ∈ [[Lit.mk 0 true, Lit.mk 1 false]], 2 ≤ cl.length) ∧
      (∀ cl ∈ [[Lit.mk 0 true, Lit.mk 1 false]], ∀ l ∈ cl.take 2, l.x < 2) ∧
      runAddClauses [[Lit.mk 0 true, Lit.mk 1 false]] (initState 2) = some c4wstate ∧
      (c4wstate.clauses = [[Lit.mk 0 true, Lit.mk 1 false]] ∧
        ∀ ci x b, ci ∈ watchListOf c4wstate x b ↔
          (ci < ([[Lit.mk 0 true, Lit.mk 1 false]] : List (List Lit)).length ∧
            ((x = (nthLit (([[Lit.mk 0 true, Lit.mk 1 false]] : List (List Lit)).getD ci []) 0).x ∧
                b = (nthLit (([[Lit.mk 0 true, Lit.mk 1 false]] : List (List Lit)).getD ci []) 0).sign) ∨
             (x = (nthLit (([[Lit.mk 0 true, Lit.mk 1 false]] : List (List Lit)).getD ci []) 1).x ∧
                b = (nthLit (([[Lit.mk 0 true, Lit.mk 1 false]] : List (List Lit)).getD ci []) 1).sign)))) :=
  ⟨by decide, by decide, by decide,
    add_clause_watch_invariant [[Lit.mk 0 true, Lit.mk 1 false]] 2 c4wstate
      (by decide) (by decide) (by decide)⟩

/-! ## LA engine variable (src/lin/var.rs, with InfRational from
src/utils/inf_rational.rs) -/

/-- `struct InfRational { rat: Rational, inf: Rational }`. -/
structure InfRational where
  rat : Rational
  inf : Rational
deriving DecidableEq, Repr

def InfRational.POSITIVE_INFINITY : InfRational := ⟨Chronoxide.POSITIVE_INFINITY, ZERO⟩

def InfRational.NEGATIVE_INFINITY : InfRational := ⟨Chronoxide.NEGATIVE_INFINITY, ZERO⟩

/-- `InfRational::from_integer`. -/
def InfRational.fromInteger (n : Int) : InfRational := ⟨Chronoxide.fromInteger n, ZERO⟩

/-- `PartialOrd for Rational`:
`(self.num * other.den).partial_cmp(&(other.num * self.den))`, which is
total on integers. -/
def ratCmp (a b : Rational) : Ordering := compare (a.num * b.den) (b.num * a.den)

/-- `PartialOrd for InfRational`: lexicographic on (rat, inf). -/
def infCmp (a b : InfRational) : Ordering :=
  match ratCmp a.rat b.rat with
  | Ordering.eq => ratCmp a.inf b.inf
  | o => o

/-- The `BTreeMap<InfRational, HashSet<usize>>` bound ledger, as an
association list sorted strictly ascending under `infCmp`; the reason
sets are duplicate-free lists. -/
abbrev Ledger := List (InfRational × List Nat)

/-- `self.lbs.entry(key).or_default().insert(r)`: ordered insertion; a
comparison-equal key reuses the stored key (as `BTreeMap::entry` does)
and set insertion ignores duplicates. -/
def ledgerInsert (key : InfRational) (r : Nat) : Ledger → Ledger
  | [] => [(key, [r])]
  | (k, rs) :: tl =>
    match infCmp key k with
    | Ordering.lt => (key, [r]) :: (k, rs) :: tl
    | Ordering.eq => (k, if r ∈ rs then rs else rs ++ [r]) :: tl
    | Ordering.gt => (k, rs) :: ledgerInsert key r tl

/-- `BTreeMap::contains_key`. -/
def ledgerContains (key : InfRational) : Ledger → Bool
  | [] => false
  | (k, _) :: tl => if infCmp key k = Ordering.eq then true else ledgerContains key tl

/-- `BTreeMap::remove(&key)`. -/
def ledgerRemove (key : InfRational) : Ledger → Ledger
  | [] => []
  | (k, rs) :: tl =>
    if infCmp key k = Ordering.eq then tl else (k, rs) :: ledgerRemove key tl

/-- The body of `unset_lb`/`unset_ub` after the assert:
`reasons.remove(&reason); if reasons.is_empty() { map.remove(&key) }`. -/
def ledgerRemoveReason (key : InfRational) (r : Nat) : Ledger → Ledger
  | [] => []
  | (k, rs) :: tl =>
    if infCmp key k = Ordering.eq then
      let rs2 := rs.erase r
      if rs2 = [] then tl else (k, rs2) :: tl
    else (k, rs) :: ledgerRemoveReason key r tl

/-- `struct Var` of src/lin/var.rs. -/
structure LAVar where
  val : InfRational
  lbs : Ledger
  ubs : Ledger
  rows : List Nat
deriving DecidableEq, Repr

/-- `Var::new()`. -/
def LAVar.new : LAVar := ⟨InfRational.fromInteger 0, [], [], []⟩

/-- `Var::lb`: the smallest stored lower-bound key (`iter().next()`), or
−∞ when the ledger is empty. -/
def lbVal (v : LAVar) : InfRational :=
  match v.lbs with
  | (k, _) :: _ => k
  | [] => InfRational.NEGATIVE_INFINITY

/-- `Var::ub`: the largest stored upper-bound key (`iter().next_back()`),
or +∞ when the ledger is empty. -/
def ubVal (v : LAVar) : InfRational :=
  match v.ubs.getLast? with
  | some p => p.1
  | none => InfRational.POSITIVE_INFINITY

/-- `Var::set_lb`; the failed `assert!(lb <= self.ub())` (panic) is the
`none` branch; `lb <= ub` is `partial_cmp` being `Less` or `Equal`. -/
def setLb (v : LAVar) (lb : InfRational) (reason : Option Nat) : Option LAVar :=
  if infCmp lb (ubVal v) = Ordering.gt then none
  else some (match reason with
    | some r => { v with lbs := ledgerInsert lb r v.lbs }
    | none =>
        let toRemove := (v.lbs.map Prod.fst).takeWhile
          (fun b => infCmp b lb = Ordering.lt)
        { v with lbs := toRemove.foldl (fun acc k => ledgerRemove k acc) v.lbs })

/-- `Var::set_ub`; dual to `set_lb` (the `None` branch walks the keys in
reverse and removes those greater than the new bound). -/
def setUb (v : LAVar) (ub : InfRational) (reason : Option Nat) : Option LAVar :=
  if infCmp ub (lbVal v) = Ordering.lt then none
  else some (match reason with
    | some r => { v with ubs := ledgerInsert ub r v.ubs }
    | none =>
        let toRemove := ((v.ubs.map Prod.fst).reverse).takeWhile
          (fun b => infCmp b ub = Ordering.gt)
        { v with ubs := toRemove.foldl (fun acc k => ledgerRemove k acc) v.ubs })

/-- `Var::unset_lb`; the failed `assert!(self.lbs.contains_key(&lb))` is
`none`. -/
def unsetLb (v : LAVar) (lb : InfRational) (reason : Nat) : Option LAVar :=
  if ledgerContains lb v.lbs then
    some { v with lbs := ledgerRemoveReason lb reason v.lbs }
  else none

/-- `Var::unset_ub`. -/
def unsetUb (v : LAVar) (ub : InfRational) (reason : Nat) : Option LAVar :=
  if ledgerContains ub v.ubs then
    some { v with ubs := ledgerRemoveReason ub reason v.ubs }
  else none

/-- A `set_lb`/`unset_lb` call, as in C1's claim. -/
inductive LbOp where
  | set (lb : InfRational) (reason : Option Nat)
  | unset (lb : InfRational) (reason : Nat)
deriving DecidableEq, Repr

def opKey : LbOp → InfRational
  | LbOp.set lb _ => lb
  | LbOp.unset lb _ => lb

def applyLbOp (v : LAVar) : LbOp → Option LAVar
  | LbOp.set lb r => setLb v lb r
  | LbOp.unset lb r => unsetLb v lb r

def applyLbOps : List LbOp → LAVar → Option LAVar
  | [], v => some v
  | op :: rest, v =>
      match applyLbOp v op with
      | some v2 => applyLbOps rest v2
      | none => none

/-- The spec's claimed active lower bound: the maximum of the stored keys
under the source ordering, or −∞ when the ledger is empty. -/
def specActiveLbMax (l : Ledger) : InfRational :=
  match l with
  | [] => InfRational.NEGATIVE_INFINITY
  | (k, _) :: tl =>
      tl.foldl (fun acc p => if infCmp p.1 acc = Ordering.gt then p.1 else acc) k

/-- The corrected active lower bound: the minimum of the stored keys, or
−∞ when the ledger is empty. -/
def specActiveLbMin (l : Ledger) : InfRational :=
  match l with
  | [] => InfRational.NEGATIVE_INFINITY
  | (k, _) :: tl =>
      tl.foldl (fun acc p => if infCmp p.1 acc = Ordering.lt then p.1 else acc) k

/-- C5 counterexample: with an upper bound of 10 installed, `set_lb(11)`
takes the failed-`assert!` branch (a panic, modeled `none`) — there is no
Boolean-false return through which the conflict could be surfaced, and
`set_lb`'s return type carries no Boolean at all. -/
theorem set_lb_conflict_counterexample :
    ∃ v1, setUb LAVar.new (InfRational.fromInteger 10) (some 1) = some v1 ∧
      setLb v1 (InfRational.fromInteger 11) (some 2) = none :=
  ⟨⟨InfRational.fromInteger 0, [], [(InfRational.fromInteger 10, [1])], []⟩,
    by decide, by decide⟩

/-- C5 (amended): `set_lb` with a bound strictly above the active upper
bound fails the `assert!(lb <= self.ub())` — a panic, not a Boolean-false
return — and succeeds in every other case; dually for `set_ub` against
the active lower bound. -/
theorem set_bound_conflict_asserts (v : LAVar) (b : InfRational) (reason : Option Nat) :
    (setLb v b reason = none ↔ infCmp b (ubVal v) = Ordering.gt) ∧
      (setUb v b reason = none ↔ infCmp b (lbVal v) = Ordering.lt) := by
  constructor
  · by_cases h : infCmp b (ubVal v) = Ordering.gt <;> simp [setLb, h]
  · by_cases h : infCmp b (lbVal v) = Ordering.lt <;> simp [setUb, h]

/-- C1 counterexample: after `set_lb(10, reason 1)` then
`set_lb(20, reason 2)`, the ledger holds keys {10, 20}, whose maximum is
20, but `Var::lb()` reports 10 — the smallest key, not the largest. -/
theorem active_lb_not_max_counterexample :
    ∃ v, applyLbOps [LbOp.set (InfRational.fromInteger 10) (some 1),
        LbOp.set (InfRational.fromInteger 20) (some 2)] LAVar.new = some v ∧
      lbVal v = InfRational.fromInteger 10 ∧
      specActiveLbMax v.lbs = InfRational.fromInteger 20 ∧
      InfRational.fromInteger 10 ≠ InfRational.fromInteger 20 :=
  ⟨⟨InfRational.fromInteger 0,
      [(InfRational.fromInteger 10, [1]), (InfRational.fromInteger 20, [2])], [], []⟩,
    by decide, by decide, by decide, by decide⟩

/-- A finite, normalized Rational (the representation every value built
through the `Rational` constructors satisfies, away from ±∞). -/
def FinN (r : Rational) : Prop := IsNormalized r ∧ r.den ≠ 0

instance (r : Rational) : Decidable (FinN r) := by
  unfold FinN; infer_instance

/-- Both components finite and normalized. -/
def FinNI (x : InfRational) : Prop := FinN x.rat ∧ FinN x.inf

instance (x : InfRational) : Decidable (FinNI x) := by
  unfold FinNI; infer_instance

theorem ratCmp_gt_iff_lt (a b : Rational) :
    ratCmp a b = Ordering.gt ↔ ratCmp b a = Ordering.lt := by
  unfold ratCmp
  rw [compare_gt_iff_gt, compare_lt_iff_lt]

theorem ratCmp_eq_symm (a b : Rational) :
    ratCmp a b = Ordering.eq ↔ ratCmp b a = Ordering.eq := by
  unfold ratCmp
  rw [compare_eq_iff_eq, compare_eq_iff_eq]
  exact eq_comm

theorem infCmp_rat_lt {a b : InfRational} (h : ratCmp a.rat b.rat = Ordering.lt) :
    infCmp a b = Ordering.lt := by
  unfold infCmp
  rw [h]

theorem infCmp_rat_eq {a b : InfRational} (h : ratCmp a.rat b.rat = Ordering.eq) :
    infCmp a b = ratCmp a.inf b.inf := by
  unfold infCmp
  rw [h]

theorem infCmp_rat_gt {a b : InfRational} (h : ratCmp a.rat b.rat = Ordering.gt) :
    infCmp a b = Ordering.gt := by
  unfold infCmp
  rw [h]

theorem infCmp_gt_iff_lt (a b : InfRational) :
    infCmp a b = Ordering.gt ↔ infCmp b a = Ordering.lt := by
  rcases h1 : ratCmp a.rat b.rat with _ | _ | _
  · have h2 : ratCmp b.rat a.rat = Ordering.gt := (ratCmp_gt_iff_lt b.rat a.rat).mpr h1
    rw [infCmp_rat_lt h1, infCmp_rat_gt h2]
    constructor <;> intro hx <;> cases hx
  · have h2 : ratCmp b.rat a.rat = Ordering.eq := (ratCmp_eq_symm a.rat b.rat).mp h1
    rw [infCmp_rat_eq h1, infCmp_rat_eq h2]
    exact ratCmp_gt_iff_lt a.inf b.inf
  · have h2 : ratCmp b.rat a.rat = Ordering.lt := (ratCmp_gt_iff_lt a.rat b.rat).mp h1
    rw [infCmp_rat_gt h1, infCmp_rat_lt h2]
    constructor <;> intro hx <;> rfl

theorem ratCmp_lt_iff_toQ {a b : Rational} (ha : FinN a) (hb : FinN b) :
    ratCmp a b = Ordering.lt ↔ toQ a < toQ b := by
  have hda : (0:Int) < a.den := lt_of_le_of_ne ha.1.1 (Ne.symm ha.2)
  have hdb : (0:Int) < b.den := lt_of_le_of_ne hb.1.1 (Ne.symm hb.2)
  unfold ratCmp toQ
  rw [compare_lt_iff_lt]
  rw [div_lt_div_iff (by exact_mod_cast hda) (by exact_mod_cast hdb)]
  constructor <;> intro h <;> exact_mod_cast h

theorem ratCmp_eq_iff_toQ {a b : Rational} (ha : FinN a) (hb : FinN b) :
    ratCmp a b = Ordering.eq ↔ toQ a = toQ b := by
  unfold ratCmp
  rw [compare_eq_iff_eq]
  exact (toQ_eq_iff ha.2 hb.2).symm

theorem infCmp_lt_iff {a b : InfRational} (ha : FinNI a) (hb : FinNI b) :
    infCmp a b = Ordering.lt ↔
      (toQ a.rat < toQ b.rat ∨ (toQ a.rat = toQ b.rat ∧ toQ a.inf < toQ b.inf)) := by
  rcases h1 : ratCmp a.rat b.rat with _ | _ | _
  · have h2 := (ratCmp_lt_iff_toQ ha.1 hb.1).mp h1
    rw [infCmp_rat_lt h1]
    constructor
    · intro _; exact Or.inl h2
    · intro _; rfl
  · have h2 := (ratCmp_eq_iff_toQ ha.1 hb.1).mp h1
    rw [infCmp_rat_eq h1, ratCmp_lt_iff_toQ ha.2 hb.2]
    constructor
    · intro h3; exact Or.inr ⟨h2, h3⟩
    · rintro (h3 | ⟨_, h3⟩)
      · exact absurd h2 (ne_of_lt h3)
      · exact h3
  · have h2 := (ratCmp_lt_iff_toQ hb.1 ha.1).mp ((ratCmp_gt_iff_lt a.rat b.rat).mp h1)
    rw [infCmp_rat_gt h1]
    constructor
    · intro h3; cases h3
    · rintro (h3 | ⟨h3, _⟩)
      · exact absurd h3 (asymm h2)
      · exact absurd h3 (ne_of_gt h2)

theorem infCmp_lt_trans {a b c : InfRational} (ha : FinNI a) (hb : FinNI b) (hc : FinNI c)
    (h1 : infCmp a b = Ordering.lt) (h2 : infCmp b c = Ordering.lt) :
    infCmp a c = Ordering.lt := by
  rw [infCmp_lt_iff ha hb] at h1
  rw [infCmp_lt_iff hb hc] at h2
  rw [infCmp_lt_iff ha hc]
  rcases h1 with h1 | ⟨h1e, h1i⟩ <;> rcases h2 with h2 | ⟨h2e, h2i⟩
  · exact Or.inl (lt_trans h1 h2)
  · exact Or.inl (by rw [← h2e]; exact h1)
  · exact Or.inl (by rw [h1e]; exact h2)
  · exact Or.inr ⟨h1e.trans h2e, lt_trans h1i h2i⟩

def ltKey (a b : InfRational) : Prop := infCmp a b = Ordering.lt

def KeysSorted (l : Ledger) : Prop := (l.map Prod.fst).Pairwise ltKey

def KeysFin (l : Ledger) : Prop := ∀ k ∈ l.map Prod.fst, FinNI k

def LedgerWF (l : Ledger) : Prop := KeysSorted l ∧ KeysFin l

theorem ledgerInsert_keys_mem (key : InfRational) (r : Nat) :
    ∀ (l : Ledger) (k : InfRational), k ∈ (ledgerInsert key r l).map Prod.fst →
      k = key ∨ k ∈ l.map Prod.fst := by
  intro l
  induction l with
  | nil =>
    intro k hk
    simp [ledgerInsert] at hk
    exact Or.inl hk
  | cons hd tl ih =>
    intro k hk
    obtain ⟨k0, rs0⟩ := hd
    simp only [ledgerInsert] at hk
    rcases h : infCmp key k0 with _ | _ | _ <;> rw [h] at hk <;> simp at hk
    · rcases hk with hk | hk | hk
      · exact Or.inl hk
      · exact Or.inr (by simp [hk])
      · exact Or.inr (by simp; exact Or.inr hk)
    · rcases hk with hk | hk
      · exact Or.inr (by simp [hk])
      · exact Or.inr (by simp; exact Or.inr hk)
    · rcases hk with hk | hk
      · exact Or.inr (by simp [hk])
      · rcases ih k (by simpa using hk) with hk2 | hk2
        · exact Or.inl hk2
        · exact Or.inr (by simp; exact Or.inr (by simpa using hk2))

theorem ledgerInsert_fin {key : InfRational} {r : Nat} (hkey : FinNI key) :
    ∀ {l : Ledger}, KeysFin l → KeysFin (ledgerInsert key r l) := by
  intro l hf k hk
  rcases ledgerInsert_keys_mem key r l k hk with h | h
  · rw [h]; exact hkey
  · exact hf k h

theorem ledgerInsert_sorted {key : InfRational} {r : Nat} (hkey : FinNI key) :
    ∀ {l : Ledger}, KeysSorted l → KeysFin l → KeysSorted (ledgerInsert key r l) := by
  intro l
  induction l with
  | nil =>
    intro _ _
    simp [ledgerInsert, KeysSorted]
  | cons hd tl ih =>
    intro hs hf
    obtain ⟨k0, rs0⟩ := hd
    have hk0 : FinNI k0 := hf k0 (by simp)
    have hcons := List.pairwise_cons.mp
      (show (k0 :: tl.map Prod.fst).Pairwise ltKey from hs)
    have hs2 : KeysSorted tl := hcons.2
    have hhead : ∀ k ∈ tl.map Prod.fst, ltKey k0 k := hcons.1
    have hf2 : KeysFin tl := fun k hk => hf k (by simp; exact Or.inr (by simpa using hk))
    rcases h : infCmp key k0 with _ | _ | _
    · have he : ledgerInsert key r ((k0, rs0) :: tl) = (key, [r]) :: (k0, rs0) :: tl := by
        simp only [ledgerInsert]
        rw [h]
      show ((ledgerInsert key r ((k0, rs0) :: tl)).map Prod.fst).Pairwise ltKey
      rw [he]
      simp only [List.map_cons]
      refine List.Pairwise.cons ?_ (show (k0 :: tl.map Prod.fst).Pairwise ltKey from hs)
      intro k hk
      simp at hk
      rcases hk with hk | hk
      · rw [hk]; exact h
      · exact infCmp_lt_trans hkey hk0 (hf2 k (by simpa using hk)) h
          (hhead k (by simpa using hk))
    · have he : ledgerInsert key r ((k0, rs0) :: tl)
          = (k0, if r ∈ rs0 then rs0 else rs0 ++ [r]) :: tl := by
        simp only [ledgerInsert]
        rw [h]
      show ((ledgerInsert key r ((k0, rs0) :: tl)).map Prod.fst).Pairwise ltKey
      rw [he]
      simp only [List.map_cons]
      exact (show (k0 :: tl.map Prod.fst).Pairwise ltKey from hs)
    · have he : ledgerInsert key r ((k0, rs0) :: tl)
          = (k0, rs0) :: ledgerInsert key r tl := by
        simp only [ledgerInsert]
        rw [h]
      show ((ledgerInsert key r ((k0, rs0) :: tl)).map Prod.fst).Pairwise ltKey
      rw [he]
      simp only [List.map_cons]
      refine List.Pairwise.cons ?_ (ih hs2 hf2)
      intro k hk
      rcases ledgerInsert_keys_mem key r tl k hk with hk2 | hk2
      · rw [hk2]
        exact (infCmp_gt_iff_lt key k0).mp h
      · exact hhead k hk2

theorem ledgerRemove_keys_sublist (key : InfRational) :
    ∀ l : Ledger, ((ledgerRemove key l).map Prod.fst).Sublist (l.map Prod.fst) := by
  intro l
  induction l with
  | nil => simp [ledgerRemove]
  | cons hd tl ih =>
    obtain ⟨k0, rs0⟩ := hd
    simp only [ledgerRemove]
    by_cases h : infCmp key k0 = Ordering.eq
    · rw [if_pos h]
      simp
    · rw [if_neg h]
      simpa using List.Sublist.cons₂ k0 ih

theorem ledgerRemoveReason_keys_sublist (key : InfRational) (r : Nat) :
    ∀ l : Ledger, ((ledgerRemoveReason key r l).map Prod.fst).Sublist (l.map Prod.fst) := by
  intro l
  induction l with
  | nil => simp [ledgerRemoveReason]
  | cons hd tl ih =>
    obtain ⟨k0, rs0⟩ := hd
    simp only [ledgerRemoveReason]
    by_cases h : infCmp key k0 = Ordering.eq
    · rw [if_pos h]
      by_cases h2 : rs0.erase r = []
      · simp only [h2, if_pos rfl]
        simp
      · rw [if_neg h2]
        simp
    · rw [if_neg h]
      simpa using List.Sublist.cons₂ k0 ih

theorem ledgerWF_of_sublist {l1 l2 : Ledger}
    (hsub : (l1.map Prod.fst).Sublist (l2.map Prod.fst)) (hwf : LedgerWF l2) :
    LedgerWF l1 :=
  ⟨hwf.1.sublist hsub, fun k hk => hwf.2 k (hsub.subset hk)⟩

theorem foldRemove_wf (keys : List InfRational) :
    ∀ l : Ledger, LedgerWF l →
      LedgerWF (keys.foldl (fun acc k => ledgerRemove k acc) l) := by
  induction keys with
  | nil => intro l hwf; exact hwf
  | cons k keys ih =>
    intro l hwf
    exact ih _ (ledgerWF_of_sublist (ledgerRemove_keys_sublist k l) hwf)

theorem setLb_wf {v : LAVar} {lb : InfRational} {reason : Option Nat} {v2 : LAVar}
    (hwf : LedgerWF v.lbs) (hk : FinNI lb) (h : setLb v lb reason = some v2) :
    LedgerWF v2.lbs := by
  unfold setLb at h
  split at h
  · cases h
  · rcases reason with _ | r
    · obtain rfl := Option.some.inj h
      exact foldRemove_wf _ _ hwf
    · obtain rfl := Option.some.inj h
      exact ⟨ledgerInsert_sorted hk hwf.1 hwf.2, ledgerInsert_fin hk hwf.2⟩

theorem unsetLb_wf {v : LAVar} {lb : InfRational} {reason : Nat} {v2 : LAVar}
    (hwf : LedgerWF v.lbs) (h : unsetLb v lb reason = some v2) :
    LedgerWF v2.lbs := by
  unfold unsetLb at h
  split at h
  · obtain rfl := Option.some.inj h
    exact ledgerWF_of_sublist (ledgerRemoveReason_keys_sublist lb reason v.lbs) hwf
  · cases h

theorem applyLbOps_wf :
    ∀ (ops : List LbOp) (v0 v : LAVar), (∀ op ∈ ops, FinNI (opKey op)) →
      LedgerWF v0.lbs → applyLbOps ops v0 = some v → LedgerWF v.lbs := by
  intro ops
  induction ops with
  | nil =>
    intro v0 v _ hwf h
    obtain rfl := Option.some.inj h
    exact hwf
  | cons op rest ih =>
    intro v0 v hkeys hwf h
    rcases op with ⟨lb, reason⟩ | ⟨lb, reason⟩
    · simp only [applyLbOps, applyLbOp] at h
      rcases h2 : setLb v0 lb reason with _ | v1
      · rw [h2] at h; cases h
      · rw [h2] at h
        exact ih v1 v (fun o ho => hkeys o (by simp [ho]))
          (setLb_wf hwf (by simpa [opKey] using hkeys (LbOp.set lb reason) (by simp)) h2) h
    · simp only [applyLbOps, applyLbOp] at h
      rcases h2 : unsetLb v0 lb reason with _ | v1
      · rw [h2] at h; cases h
      · rw [h2] at h
        exact ih v1 v (fun o ho => hkeys o (by simp [ho])) (unsetLb_wf hwf h2) h

theorem foldl_min_id :
    ∀ (tl : Ledger) (acc : InfRational),
      (∀ p ∈ tl, ¬ (infCmp p.1 acc = Ordering.lt)) →
      tl.foldl (fun acc p => if infCmp p.1 acc = Ordering.lt then p.1 else acc) acc = acc := by
  intro tl
  induction tl with
  | nil => intro acc _; rfl
  | cons p tl ih =>
    intro acc hall
    simp only [List.foldl_cons]
    rw [if_neg (hall p (by simp))]
    exact ih acc (fun q hq => hall q (by simp [hq]))

theorem lbVal_eq_min {v : LAVar} (hwf : LedgerWF v.lbs) :
    lbVal v = specActiveLbMin v.lbs := by
  unfold lbVal specActiveLbMin
  rcases hl : v.lbs with _ | ⟨⟨k0, rs0⟩, tl⟩
  · rfl
  · have hs := hwf.1
    rw [hl] at hs
    have hcons := List.pairwise_cons.mp
      (show (k0 :: tl.map Prod.fst).Pairwise ltKey from hs)
    show k0 = tl.foldl (fun acc p => if infCmp p.1 acc = Ordering.lt then p.1 else acc) k0
    rw [foldl_min_id]
    intro p hp
    have hlt : ltKey k0 p.1 := hcons.1 p.1 (List.mem_map_of_mem Prod.fst hp)
    intro hcontra
    have := (infCmp_gt_iff_lt p.1 k0).mpr hlt
    rw [hcontra] at this
    cases this

/-- C1 (amended): for every sequence of `set_lb`/`unset_lb` calls on a
fresh variable that take only finite normalized bound values and do not
hit an assertion failure, the active lower bound `Var::lb()` reports is
the MINIMUM of the keys remaining in the ledger — not the maximum the
spec states — or −∞ when the ledger is empty. -/
theorem la_active_lb_is_min (ops : List LbOp) (v : LAVar)
    (hkeys : ∀ op ∈ ops, FinNI (opKey op))
    (hrun : applyLbOps ops LAVar.new = some v) :
    lbVal v = specActiveLbMin v.lbs := by
  have hwf0 : LedgerWF (LAVar.new).lbs := by
    constructor
    · simp [LAVar.new, KeysSorted]
    · intro k hk
      simp [LAVar.new] at hk
  exact lbVal_eq_min (applyLbOps_wf ops LAVar.new v hkeys hwf0 hrun)

theorem la_active_lb_is_min_witness :
    (∀ op ∈ [LbOp.set (InfRational.fromInteger 10) (some 1),
        LbOp.set (InfRational.fromInteger 20) (some 2)], FinNI (opKey op)) ∧
      applyLbOps [LbOp.set (InfRational.fromInteger 10) (some 1),
          LbOp.set (InfRational.fromInteger 20) (some 2)] LAVar.new =
        some ⟨InfRational.fromInteger 0,
          [(InfRational.fromInteger 10, [1]), (InfRational.fromInteger 20, [2])], [], []⟩ ∧
      lbVal ⟨InfRational.fromInteger 0,
          [(InfRational.fromInteger 10, [1]), (InfRational.fromInteger 20, [2])], [], []⟩ =
        specActiveLbMin [(InfRational.fromInteger 10, [1]), (InfRational.fromInteger 20, [2])] :=
  ⟨by decide, by decide,
    la_active_lb_is_min
      [LbOp.set (InfRational.fromInteger 10) (some 1),
        LbOp.set (InfRational.fromInteger 20) (some 2)]
      ⟨InfRational.fromInteger 0,
        [(InfRational.fromInteger 10, [1]), (InfRational.fromInteger 20, [2])], [], []⟩
      (by decide) (by decide)⟩

/-! ## Linear expressions (`src/utils/lin.rs`) -/

/-- `Lin` (`src/utils/lin.rs`): a linear expression with a coefficient map
`vars: HashMap<u32, Rational>` and a `known_term: Rational`. The hash map
is embedded as an association list with distinct keys; updates replace in
place, fresh keys are appended. -/
structure Lin where
  vars : List (Nat × Rational)
  known_term : Rational
  deriving DecidableEq, Repr

/-- One step of the `AddAssign`/`SubAssign` loops of `Lin`:
`*self.vars.entry(*var).or_insert(Rational::new(0, 1)) op= coeff`.
If the key is absent, `Rational::new(0, 1)` (= `rnormalize ⟨0, 1⟩`, whose
assertion trivially passes) is inserted first; then the rational operator
`f` (`addAssign` or `subAssign`) is applied, whose panic branch is `none`. -/
def linEntryApply (f : Rational → Rational → Option Rational) :
    List (Nat × Rational) → Nat → Rational → Option (List (Nat × Rational))
  | [], k, cf => (f (rnormalize ⟨0, 1⟩) cf).map (fun v => [(k, v)])
  | (k0, c0) :: tl, k, cf =>
      if k0 = k then (f c0 cf).map (fun v => (k0, v) :: tl)
      else (linEntryApply f tl k cf).map (fun tl2 => (k0, c0) :: tl2)

/-- The `for (var, coeff) in &other.vars` loop of `AddAssign`/`SubAssign`,
threading the updated coefficient map left to right. -/
def linFoldEntry (f : Rational → Rational → Option Rational) :
    List (Nat × Rational) → List (Nat × Rational) → Option (List (Nat × Rational))
  | av, [] => some av
  | av, p :: bs =>
      match linEntryApply f av p.1 p.2 with
      | none => none
      | some av2 => linFoldEntry f av2 bs

/-- `impl AddAssign<&Lin> for Lin` (`src/utils/lin.rs:33-40`): update every
coefficient of `other` into `self`, then add the known terms. No entry is
ever removed. -/
def linAddAssign (a b : Lin) : Option Lin :=
  match linFoldEntry addAssign a.vars b.vars with
  | none => none
  | some vs =>
    match addAssign a.known_term b.known_term with
    | none => none
    | some kt => some ⟨vs, kt⟩

/-- `impl SubAssign<&Lin> for Lin` (`src/utils/lin.rs:68-75`). -/
def linSubAssign (a b : Lin) : Option Lin :=
  match linFoldEntry subAssign a.vars b.vars with
  | none => none
  | some vs =>
    match subAssign a.known_term b.known_term with
    | none => none
    | some kt => some ⟨vs, kt⟩

/-- The one-variable expression `1·x₁` used as the C7 counterexample. -/
def demoLin : Lin := ⟨[(1, fromInteger 1)], ZERO⟩

/-- C7 counterexample: `L - L` for `L = 1·x₁` does NOT empty the
coefficient map: key 1 survives with coefficient zero, because the
`SubAssign` loop only updates entries and never removes them. -/
theorem lin_zero_coeff_not_dropped_counterexample :
    linSubAssign demoLin demoLin = some ⟨[(1, ZERO)], ZERO⟩ ∧
      1 ∈ (Lin.vars ⟨[(1, ZERO)], ZERO⟩).map Prod.fst :=
  ⟨by decide, by decide⟩

theorem linEntryApply_keys {f : Rational → Rational → Option Rational} :
    ∀ {l l2 : List (Nat × Rational)} {k : Nat} {cf : Rational},
      linEntryApply f l k cf = some l2 →
      ∀ j, (j ∈ l.map Prod.fst ∨ j = k) → j ∈ l2.map Prod.fst := by
  intro l
  induction l with
  | nil =>
    intro l2 k cf h j hj
    simp only [linEntryApply] at h
    rcases hf : f (rnormalize ⟨0, 1⟩) cf with _ | v
    · rw [hf] at h; cases h
    · rw [hf] at h
      obtain rfl := Option.some.inj h
      rcases hj with hj | hj
      · simp at hj
      · simp [hj]
  | cons p tl ih =>
    intro l2 k cf h j hj
    obtain ⟨k0, c0⟩ := p
    simp only [linEntryApply] at h
    by_cases hk : k0 = k
    · rw [if_pos hk] at h
      rcases hf : f c0 cf with _ | v
      · rw [hf] at h; cases h
      · rw [hf] at h
        obtain rfl := Option.some.inj h
        rcases hj with hj | hj
        · simpa using hj
        · simp [hj, ← hk]
    · rw [if_neg hk] at h
      rcases hrec : linEntryApply f tl k cf with _ | tl2
      · rw [hrec] at h; cases h
      · rw [hrec] at h
        obtain rfl := Option.some.inj h
        rcases hj with hj | hj
        · simp at hj
          rcases hj with hj | hj
          · simp [hj]
          · simp [ih hrec j (Or.inl (by simpa using hj))]
        · simp [ih hrec j (Or.inr hj)]

theorem linFoldEntry_keys {f : Rational → Rational → Option Rational} :
    ∀ (bs av vs : List (Nat × Rational)),
      linFoldEntry f av bs = some vs →
      ∀ j, (j ∈ av.map Prod.fst ∨ j ∈ bs.map Prod.fst) → j ∈ vs.map Prod.fst := by
  intro bs
  induction bs with
  | nil =>
    intro av vs h j hj
    obtain rfl := Option.some.inj h
    rcases hj with hj | hj
    · exact hj
    · simp at hj
  | cons p bs ih =>
    intro av vs h j hj
    simp only [linFoldEntry] at h
    rcases hstep : linEntryApply f av p.1 p.2 with _ | av2
    · rw [hstep] at h; cases h
    · rw [hstep] at h
      rcases hj with hj | hj
      · exact ih av2 vs h j (Or.inl (linEntryApply_keys hstep j (Or.inl hj)))
      · simp at hj
        rcases hj with hj | hj
        · exact ih av2 vs h j (Or.inl (linEntryApply_keys hstep j (Or.inr hj)))
        · exact ih av2 vs h j (Or.inr (by simpa using hj))

/-- C7 (amended): in-place addition and subtraction of linear expressions
never drop a key: every key of either operand is still present in a
successful result. Zeroed coefficients are retained in the map rather than
removed, contrary to the drop-on-zero invariant the spec states. -/
theorem lin_inplace_update_keeps_keys (sub : Bool) (a b a2 : Lin)
    (h : (if sub then linSubAssign a b else linAddAssign a b) = some a2)
    (k : Nat) (hk : k ∈ a.vars.map Prod.fst ∨ k ∈ b.vars.map Prod.fst) :
    k ∈ a2.vars.map Prod.fst := by
  cases sub
  · rw [if_neg (by simp)] at h
    unfold linAddAssign at h
    rcases hfold : linFoldEntry addAssign a.vars b.vars with _ | vs
    · rw [hfold] at h; cases h
    · rw [hfold] at h
      rcases hkt : addAssign a.known_term b.known_term with _ | kt
      · rw [hkt] at h; cases h
      · rw [hkt] at h
        obtain rfl := Option.some.inj h
        exact linFoldEntry_keys b.vars a.vars vs hfold k hk
  · rw [if_pos rfl] at h
    unfold linSubAssign at h
    rcases hfold : linFoldEntry subAssign a.vars b.vars with _ | vs
    · rw [hfold] at h; cases h
    · rw [hfold] at h
      rcases hkt : subAssign a.known_term b.known_term with _ | kt
      · rw [hkt] at h; cases h
      · rw [hkt] at h
        obtain rfl := Option.some.inj h
        exact linFoldEntry_keys b.vars a.vars vs hfold k hk

theorem lin_inplace_update_keeps_keys_witness :
    (if true then linSubAssign demoLin demoLin else linAddAssign demoLin demoLin) =
        some ⟨[(1, ZERO)], ZERO⟩ ∧
      (1 ∈ demoLin.vars.map Prod.fst ∨ 1 ∈ demoLin.vars.map Prod.fst) ∧
      1 ∈ (Lin.vars ⟨[(1, ZERO)], ZERO⟩).map Prod.fst :=
  ⟨by decide, by decide,
    lin_inplace_update_keeps_keys true demoLin demoLin ⟨[(1, ZERO)], ZERO⟩
      (by decide) 1 (by decide)⟩

/-! ## Solver object layer (`src/lib.rs`) -/

/-- Modelled from the spec: the payload type `linspire::lin::Lin` of
int/real objects comes from the external `linspire` crate, which is not in
this repository. The spec describes it as an exact rational linear
expression; we model it as a total coefficient map plus a constant, with
the constructors `c` (constant) and `v` (single variable) and total
addition/subtraction, which is all `new_sum`/`new_sub` use. -/
structure SLin where
  coeffs : Nat → ℚ
  konst : ℚ

/-- Modelled from the spec: `linspire::lin::c(k)`, the constant linear
expression. -/
def SLin.c (k : Int) : SLin := ⟨fun _ => 0, (k : ℚ)⟩

/-- Modelled from the spec: `linspire::lin::v(x)`, the single-variable
linear expression `1·x`. -/
def SLin.v (x : Nat) : SLin := ⟨fun y => if y = x then 1 else 0, 0⟩

/-- Modelled from the spec: addition of linear expressions. -/
def SLin.add (a b : SLin) : SLin := ⟨fun x => a.coeffs x + b.coeffs x, a.konst + b.konst⟩

/-- Modelled from the spec: subtraction of linear expressions. -/
def SLin.sub (a b : SLin) : SLin := ⟨fun x => a.coeffs x - b.coeffs x, a.konst - b.konst⟩

/-- `RiddleError` (`src/lib.rs:19-21`). -/
inductive RiddleError where
  | TypeError (msg : String)
  deriving DecidableEq, Repr

/-- The `Object` implementations of `src/riddle/objects.rs`: `BoolObject`
(a sat literal), `IntObject` and `RealObject` (a linear expression). These
are the only object types the repository defines. -/
inductive RObject where
  | boolObj (lit : Lit)
  | intObj (lin : SLin)
  | realObj (lin : SLin)

/-- `t.class().name()`: `Bool::name` is `"bool"`, `Int::name` is `"int"`,
`Real::name` is `"real"` (`src/riddle/classes.rs`). -/
def className : RObject → String
  | .boolObj _ => "bool"
  | .intObj _ => "int"
  | .realObj _ => "real"

/-- `Solver::arith_class` (`src/lib.rs:140-154`): all-int gives the int
class, all-real gives the real class, a mix of int and real gives the real
class, anything else is a `TypeError`. (On an empty list the first `all`
is vacuously true, so the int class is returned.) -/
def arithClassOf (terms : List RObject) : Except RiddleError String :=
  if terms.all (fun t => className t == "int") then Except.ok ("int")
  else if terms.all (fun t => className t == "real") then Except.ok ("real")
  else if terms.all (fun t => className t == "int" || className t == "real") then
    Except.ok ("real")
  else Except.error (.TypeError ("Invalid term types in arithmetic operation"))

/-- The downcasting closure of `new_sum`/`new_sub`: an int term yields its
`IntObject` lin, a real term its `RealObject` lin, anything else panics
(`none`). -/
def toLin : RObject → Option SLin
  | .boolObj _ => none
  | .intObj l => some l
  | .realObj l => some l

/-- The `terms.iter().map(...)` pass of `new_sum`/`new_sub`, propagating
the panic of the closure. -/
def linsOf : List RObject → Option (List SLin)
  | [] => some []
  | t :: ts =>
      match toLin t with
      | none => none
      | some l =>
          match linsOf ts with
          | none => none
          | some ls => some (l :: ls)

/-- `Solver::new_sum` (`src/lib.rs:84-109`). `none` is a panic
(`unreachable!` or a failed downcast), `some (.error e)` the `Err` return,
`some (.ok o)` the `Ok` return. The sum folds from `c(0)`. -/
def new_sum (terms : List RObject) : Option (Except RiddleError RObject) :=
  match arithClassOf terms with
  | .error e => some (.error e)
  | .ok cls =>
      match linsOf terms with
      | none => none
      | some lins =>
          if cls == "int" then some (.ok (.intObj (lins.foldl SLin.add (SLin.c 0))))
          else if cls == "real" then some (.ok (.realObj (lins.foldl SLin.add (SLin.c 0))))
          else none

/-- `Solver::new_sub` (`src/lib.rs:111-138`): like `new_sum` but folds
subtraction from the first term; `split_first().expect(...)` panics
(`none`) on an empty list. -/
def new_sub (terms : List RObject) : Option (Except RiddleError RObject) :=
  match arithClassOf terms with
  | .error e => some (.error e)
  | .ok cls =>
      match linsOf terms with
      | none => none
      | some lins =>
          match lins with
          | [] => none
          | first :: rest =>
              if cls == "int" then some (.ok (.intObj (rest.foldl SLin.sub first)))
              else if cls == "real" then some (.ok (.realObj (rest.foldl SLin.sub first)))
              else none

theorem className_cases (t : RObject) :
    className t = "bool" ∨ className t = "int" ∨ className t = "real" := by
  cases t <;> simp [className]

theorem toLin_some {t : RObject} (h : className t = "int" ∨ className t = "real") :
    ∃ l, toLin t = some l := by
  cases t
  · simp [className] at h
  · exact ⟨_, rfl⟩
  · exact ⟨_, rfl⟩

theorem linsOf_some :
    ∀ terms : List RObject, (∀ t ∈ terms, className t = "int" ∨ className t = "real") →
      ∃ lins, linsOf terms = some lins ∧ lins.length = terms.length := by
  intro terms
  induction terms with
  | nil => intro _; exact ⟨[], rfl, rfl⟩
  | cons t ts ih =>
    intro h
    obtain ⟨l, hl⟩ := toLin_some (h t (by simp))
    obtain ⟨ls, hls, hlen⟩ := ih (fun u hu => h u (by simp [hu]))
    refine ⟨l :: ls, ?_, by simp [hlen]⟩
    simp only [linsOf]
    rw [hl, hls]

theorem arithClassOf_int {terms : List RObject} (h : ∀ t ∈ terms, className t = "int") :
    arithClassOf terms = Except.ok ("int") := by
  unfold arithClassOf
  rw [if_pos (by simp only [List.all_eq_true, beq_iff_eq]; exact h)]

theorem arithClassOf_real {terms : List RObject} (hne : terms ≠ [])
    (h : ∀ t ∈ terms, className t = "real") :
    arithClassOf terms = Except.ok ("real") := by
  obtain ⟨t0, ts, rfl⟩ := List.exists_cons_of_ne_nil hne
  unfold arithClassOf
  rw [if_neg, if_pos (by simp only [List.all_eq_true, beq_iff_eq]; exact h)]
  simp only [List.all_eq_true, beq_iff_eq]
  intro hall
  have := hall t0 (by simp)
  rw [h t0 (by simp)] at this
  exact absurd this (by decide)

theorem arithClassOf_mixed {terms : List RObject}
    (h : ∀ t ∈ terms, className t = "int" ∨ className t = "real")
    (hi : ∃ t1 ∈ terms, className t1 = "int") (hr : ∃ t2 ∈ terms, className t2 = "real") :
    arithClassOf terms = Except.ok ("real") := by
  obtain ⟨t1, ht1, hc1⟩ := hi
  obtain ⟨t2, ht2, hc2⟩ := hr
  unfold arithClassOf
  rw [if_neg, if_neg, if_pos]
  · simp only [List.all_eq_true, Bool.or_eq_true, beq_iff_eq]
    exact h
  · simp only [List.all_eq_true, beq_iff_eq]
    intro hall
    have := hall t1 ht1
    rw [hc1] at this
    exact absurd this (by decide)
  · simp only [List.all_eq_true, beq_iff_eq]
    intro hall
    have := hall t2 ht2
    rw [hc2] at this
    exact absurd this (by decide)

theorem arithClassOf_bad {terms : List RObject}
    (h : ∃ t ∈ terms, className t ≠ "int" ∧ className t ≠ "real") :
    arithClassOf terms =
      Except.error (.TypeError ("Invalid term types in arithmetic operation")) := by
  obtain ⟨t0, ht0, hc1, hc2⟩ := h
  unfold arithClassOf
  rw [if_neg, if_neg, if_neg]
  · simp only [List.all_eq_true, Bool.or_eq_true, beq_iff_eq]
    intro hall
    rcases hall t0 ht0 with hx | hx
    · exact hc1 hx
    · exact hc2 hx
  · simp only [List.all_eq_true, beq_iff_eq]
    intro hall
    exact hc2 (hall t0 ht0)
  · simp only [List.all_eq_true, beq_iff_eq]
    intro hall
    exact hc1 (hall t0 ht0)

theorem new_sum_of_ok {terms : List RObject} {cls : String} {lins : List SLin}
    (ha : arithClassOf terms = Except.ok cls) (hl : linsOf terms = some lins) :
    new_sum terms =
      (if cls == "int" then some (.ok (.intObj (lins.foldl SLin.add (SLin.c 0))))
       else if cls == "real" then some (.ok (.realObj (lins.foldl SLin.add (SLin.c 0))))
       else none) := by
  unfold new_sum
  rw [ha, hl]

theorem new_sub_of_ok {terms : List RObject} {cls : String} {first : SLin} {rest : List SLin}
    (ha : arithClassOf terms = Except.ok cls) (hl : linsOf terms = some (first :: rest)) :
    new_sub terms =
      (if cls == "int" then some (.ok (.intObj (rest.foldl SLin.sub first)))
       else if cls == "real" then some (.ok (.realObj (rest.foldl SLin.sub first)))
       else none) := by
  unfold new_sub
  rw [ha, hl]

/-- C8: for every non-empty list of terms, `new_sum` and `new_sub` produce
an object of the arithmetic join of the operand classes: all-int gives an
int object, all-real a real object, mixed int/real a real object, and any
other combination fails with a `TypeError` and produces no object. -/
theorem new_sum_sub_arith_join (terms : List RObject) (hne : terms ≠ []) :
    ((∀ t ∈ terms, className t = "int") →
        (∃ l, new_sum terms = some (.ok (.intObj l))) ∧
          ∃ l, new_sub terms = some (.ok (.intObj l))) ∧
    ((∀ t ∈ terms, className t = "real") →
        (∃ l, new_sum terms = some (.ok (.realObj l))) ∧
          ∃ l, new_sub terms = some (.ok (.realObj l))) ∧
    ((∀ t ∈ terms, className t = "int" ∨ className t = "real") →
      (∃ t1 ∈ terms, className t1 = "int") → (∃ t2 ∈ terms, className t2 = "real") →
        (∃ l, new_sum terms = some (.ok (.realObj l))) ∧
          ∃ l, new_sub terms = some (.ok (.realObj l))) ∧
    ((∃ t ∈ terms, className t ≠ "int" ∧ className t ≠ "real") →
      new_sum terms =
          some (.error (.TypeError ("Invalid term types in arithmetic operation"))) ∧
        new_sub terms =
          some (.error (.TypeError ("Invalid term types in arithmetic operation")))) := by
  refine ⟨?_, ?_, ?_, ?_⟩
  · intro hall
    obtain ⟨lins, hl, hlen⟩ := linsOf_some terms (fun t ht => Or.inl (hall t ht))
    have ha := arithClassOf_int hall
    rcases lins with _ | ⟨first, rest⟩
    · exact absurd (List.length_eq_zero.mp hlen.symm) hne
    · constructor
      · exact ⟨(first :: rest).foldl SLin.add (SLin.c 0),
          by rw [new_sum_of_ok ha hl]; rfl⟩
      · exact ⟨rest.foldl SLin.sub first, by rw [new_sub_of_ok ha hl]; rfl⟩
  · intro hall
    obtain ⟨lins, hl, hlen⟩ := linsOf_some terms (fun t ht => Or.inr (hall t ht))
    have ha := arithClassOf_real hne hall
    rcases lins with _ | ⟨first, rest⟩
    · exact absurd (List.length_eq_zero.mp hlen.symm) hne
    · constructor
      · exact ⟨(first :: rest).foldl SLin.add (SLin.c 0),
          by rw [new_sum_of_ok ha hl]; rfl⟩
      · exact ⟨rest.foldl SLin.sub first, by rw [new_sub_of_ok ha hl]; rfl⟩
  · intro hall hi hr
    obtain ⟨lins, hl, hlen⟩ := linsOf_some terms hall
    have ha := arithClassOf_mixed hall hi hr
    rcases lins with _ | ⟨first, rest⟩
    · exact absurd (List.length_eq_zero.mp hlen.symm) hne
    · constructor
      · exact ⟨(first :: rest).foldl SLin.add (SLin.c 0),
          by rw [new_sum_of_ok ha hl]; rfl⟩
      · exact ⟨rest.foldl SLin.sub first, by rw [new_sub_of_ok ha hl]; rfl⟩
  · intro hbad
    have ha := arithClassOf_bad hbad
    constructor
    · unfold new_sum
      rw [ha]
    · unfold new_sub
      rw [ha]

theorem new_sum_sub_arith_join_witness :
    ([RObject.intObj (SLin.v 0), RObject.boolObj ⟨0, true⟩] : List RObject) ≠ [] ∧
      (∃ t ∈ ([RObject.intObj (SLin.v 0), RObject.boolObj ⟨0, true⟩] : List RObject),
        className t ≠ "int" ∧ className t ≠ "real") ∧
      new_sum [RObject.intObj (SLin.v 0), RObject.boolObj ⟨0, true⟩] =
          some (.error (.TypeError ("Invalid term types in arithmetic operation"))) ∧
        new_sub [RObject.intObj (SLin.v 0), RObject.boolObj ⟨0, true⟩] =
          some (.error (.TypeError ("Invalid term types in arithmetic operation"))) :=
  ⟨by simp, ⟨RObject.boolObj ⟨0, true⟩, by simp, by simp [className], by simp [className]⟩,
    (new_sum_sub_arith_join [RObject.intObj (SLin.v 0), RObject.boolObj ⟨0, true⟩]
        (by simp)).2.2.2
      ⟨RObject.boolObj ⟨0, true⟩, by simp, by simp [className], by simp [className]⟩⟩

end Chronoxide
